import Mathlib

/-! RosPublishActivity: the coalescing publish scheduler.

A shallow embedding of `src/ros_publish_activity.hpp`.

* A channel (`RosPublisher*`) is identified by its address, a natural number.
* The registry `std::map<RosPublisher*, bool>` is the list of its entries in
  ascending key order, the order in which a `std::map` iterator visits them.
* Every member function is a function on the registry that also returns the
  sequence of events it produces (lock, unlock, registry accesses, calls of
  `publish()`, `trigger()`, `start()`, `stop()`, log lines).
* `publish()` is virtual and opaque to the class: it is a parameter, the
  effect of the call on the registry.
* `boost::shared_ptr` / `boost::weak_ptr` are modelled by the list of live
  handles and the object the static weak slot refers to.
-/

namespace RTT.ros

/-- A channel, identified by the address of its `RosPublisher` object. -/
abbrev RosPublisher := Nat

/-- The type `std::map<RosPublisher*, bool>`: the entries in iteration order. -/
abbrev Publishers := List (RosPublisher × Bool)

namespace Publishers

/-- The registered channels, in iteration order. -/
def keys (m : Publishers) : List RosPublisher := m.map Prod.fst

/-- Well-formed map: the keys are strictly ascending (so each occurs once). -/
def WF (m : Publishers) : Prop := (keys m).Pairwise (fun a b => a < b)

instance (m : Publishers) : Decidable (WF m) :=
  inferInstanceAs (Decidable ((keys m).Pairwise (fun a b => a < b)))

/-- The call `m.find(p)`: the flag of `p`, or `none` for `m.end()`. -/
def find : Publishers → RosPublisher → Option Bool
  | [], _ => none
  | (k, v) :: rest, p => if k = p then some v else find rest p

/-- The statement `m[p] = b`: overwrite the flag of `p`, or insert `p` at its place. -/
def assign : Publishers → RosPublisher → Bool → Publishers
  | [], p, b => [(p, b)]
  | (k, v) :: rest, p, b =>
    if p < k then (p, b) :: (k, v) :: rest
    else if p = k then (k, b) :: rest
    else (k, v) :: assign rest p b

/-- The call `m.erase(p)`: remove every entry whose key is `p`. -/
def erase (m : Publishers) (p : RosPublisher) : Publishers :=
  m.filter (fun e => decide (e.1 ≠ p))

/-- The statement `it->second = b` for the iterator at key `p`
(also `m.find(p)->second = b`): only the flag of an existing entry changes. -/
def setSecond : Publishers → RosPublisher → Bool → Publishers
  | [], _, _ => []
  | (k, v) :: rest, p, b =>
    if k = p then (k, b) :: rest else (k, v) :: setSecond rest p b

/-- The iterator `m.begin()`, as the key it points at (`none` is `m.end()`). -/
def begin (m : Publishers) : Option RosPublisher := m.head?.map Prod.fst

/-- The increment `++it` of the iterator at key `p`: the first entry after `p`. -/
def next (m : Publishers) (p : RosPublisher) : Option RosPublisher :=
  (m.find? (fun e => decide (p < e.1))).map Prod.fst

end Publishers

/-- Log levels used by the class. -/
inductive LogLevel
  | Debug
  | Info
  deriving DecidableEq, Repr

/-- The observable events of the member functions. -/
inductive Event
  /-- `os::MutexLock lock(map_lock)` acquires the mutex. -/
  | lock
  /-- The `MutexLock` goes out of scope. -/
  | unlock
  /-- `publishers.find(p)` -/
  | find (p : RosPublisher)
  /-- `publishers[p] = b` -/
  | assign (p : RosPublisher) (b : Bool)
  /-- `publishers.erase(p)` -/
  | erase (p : RosPublisher)
  /-- The loop reads `it->second` at the entry of `p`. -/
  | readSecond (p : RosPublisher)
  /-- A write `->second = b` to the entry of `p`. -/
  | setSecond (p : RosPublisher) (b : Bool)
  /-- `p->publish()` is invoked (and returns). -/
  | publish (p : RosPublisher)
  /-- `this->trigger()` -/
  | trigger
  /-- `start()` of the activity. -/
  | start
  /-- `stop()` of the activity (blocking). -/
  | stop
  /-- A log line: `Logger::In` tag, level, text. -/
  | log (tag : String) (level : LogLevel) (msg : String)
  /-- The `assert` fails: the program aborts. -/
  | assertFail
  deriving DecidableEq, Repr

/-- The iterations of `RosPublishActivity::loop` from the iterator `it` on:
the final registry and the events, or `none` when `fuel` iterations do not
reach `end()` or when `publish()` erased the node the iterator points at. -/
def loopFrom (publish : RosPublisher → Publishers → Publishers) :
    Nat → Option RosPublisher → Publishers → Option (Publishers × List Event)
  | _, none, m => some (m, [])
  | 0, some _, _ => none
  | fuel + 1, some k, m =>
    match Publishers.find m k with
    | none => none
    | some false =>
      (loopFrom publish fuel (Publishers.next m k) m).map
        (fun r => (r.1, Event.readSecond k :: r.2))
    | some true =>
      let m1 := Publishers.setSecond m k false
      let m2 := publish k m1
      if (Publishers.find m2 k).isSome then
        (loopFrom publish fuel (Publishers.next m2 k) m2).map
          (fun r => (r.1, Event.readSecond k :: Event.setSecond k false :: Event.publish k :: r.2))
      else none

/-- The function `RosPublishActivity::loop`: one drain pass. -/
def loop (publish : RosPublisher → Publishers → Publishers) (fuel : Nat)
    (publishers : Publishers) : Option (Publishers × List Event) :=
  (loopFrom publish fuel (Publishers.begin publishers) publishers).map
    (fun r => (r.1, Event.lock :: (r.2 ++ [Event.unlock])))

/-- The function `RosPublishActivity::addPublisher`. -/
def addPublisher (pub : RosPublisher) (publishers : Publishers) : Publishers × List Event :=
  (Publishers.assign publishers pub false, [Event.lock, Event.assign pub false, Event.unlock])

/-- The function `RosPublishActivity::removePublisher`. -/
def removePublisher (pub : RosPublisher) (publishers : Publishers) : Publishers × List Event :=
  (Publishers.erase publishers pub, [Event.lock, Event.erase pub, Event.unlock])

/-- The result of a call that may abort. -/
structure Call where
  /-- The returned value; `none` when the call did not return. -/
  ret : Option Bool
  /-- The registry after the call. -/
  publishers : Publishers
  /-- The events of the call. -/
  events : List Event
  deriving DecidableEq, Repr

/-- The function `RosPublishActivity::requestPublish`. -/
def requestPublish (chan : RosPublisher) (publishers : Publishers) : Call :=
  match Publishers.find publishers chan with
  | none =>
    { ret := none, publishers := publishers, events := [Event.lock, Event.find chan, Event.assertFail] }
  | some _ =>
    { ret := some true
      publishers := Publishers.setSecond publishers chan true
      events := [Event.lock, Event.find chan, Event.setSecond chan true, Event.unlock,
        Event.trigger] }

/-- The events of the constructor `RosPublishActivity(name)`. -/
def constructor : List Event :=
  [Event.log "RosPublishActivity" LogLevel.Debug "Creating RosPublishActivity"]

/-- The events of the destructor `~RosPublishActivity()`, in order. -/
def destructor : List Event :=
  [Event.log "RosPublishActivity" LogLevel.Info "RosPublishActivity cleans up: no more work.",
    Event.stop]

/-- A callback that leaves the registry alone. -/
def noEffect : RosPublisher → Publishers → Publishers := fun _ m => m

/-- The channels on which a sequence of events invokes `publish()`, in order. -/
def published : List Event → List RosPublisher
  | [] => []
  | Event.publish p :: rest => p :: published rest
  | _ :: rest => published rest

/-- The process-wide state that `Instance()` works on. -/
structure Process where
  /-- The static weak slot: the object it refers to, if it was ever assigned. -/
  ros_pub_act : Option Nat
  /-- The live `shared_ptr` handles, each naming the object it owns. -/
  handles : List Nat
  /-- The number of objects constructed so far (the identity of the next one). -/
  objects : Nat
  deriving DecidableEq, Repr

/-- The state at process start: empty weak slot, no handle, no object. -/
def Process.init : Process :=
  { ros_pub_act := none, handles := [], objects := 0 }

/-- The call `ros_pub_act.lock()`: the object of the weak slot when some handle
still owns it, else the empty pointer. -/
def weakLock (w : Process) : Option Nat :=
  match w.ros_pub_act with
  | none => none
  | some i => if i ∈ w.handles then some i else none

/-- The function `RosPublishActivity::Instance`: the object of the returned
handle, the new state and the events, each tagged with its object. -/
def Instance (w : Process) : Nat × Process × List (Nat × Event) :=
  match weakLock w with
  | some i => (i, { w with handles := i :: w.handles }, [])
  | none =>
    let i := w.objects
    (i, { ros_pub_act := some i, handles := i :: w.handles, objects := i + 1 },
      constructor.map (fun e => (i, e)) ++ [(i, Event.start)])

/-- A holder copies a handle it holds to object `i`. -/
def copyHandle (i : Nat) (w : Process) : Process :=
  if i ∈ w.handles then { w with handles := i :: w.handles } else w

/-- A holder releases one handle to object `i`; the destructor runs when it
was the last one. -/
def release (i : Nat) (w : Process) : Process × List (Nat × Event) :=
  if i ∈ w.handles then
    let rest := w.handles.erase i
    ({ w with handles := rest }, if i ∈ rest then [] else destructor.map (fun e => (i, e)))
  else (w, [])

/-- What the owners of handles can do, one call at a time. -/
inductive Op
  /-- A call of `Instance()`; the caller keeps the handle. -/
  | callInstance
  /-- A copy of a held handle. -/
  | callCopy (i : Nat)
  /-- The release of a held handle. -/
  | callRelease (i : Nat)
  deriving DecidableEq, Repr

/-- One operation on the process state. -/
def Op.apply : Op → Process → Process
  | Op.callInstance, w => (Instance w).2.1
  | Op.callCopy i, w => copyHandle i w
  | Op.callRelease i, w => (release i w).1

/-- A sequence of operations from a state. -/
def run (ops : List Op) (w : Process) : Process :=
  ops.foldl (fun s o => o.apply s) w

/-- A registry with every flag cleared. -/
def clearAll (m : Publishers) : Publishers := m.map (fun e => (e.1, false))

/-- The events of the iterations over the entries `m` when `publish()` leaves
the registry alone. -/
def passEvents : Publishers → List Event
  | [] => []
  | (k, true) :: rest =>
    Event.readSecond k :: Event.setSecond k false :: Event.publish k :: passEvents rest
  | (k, false) :: rest => Event.readSecond k :: passEvents rest

/-- The channels whose flag is set, in iteration order. -/
def dirtyKeys (m : Publishers) : List RosPublisher :=
  (m.filter (fun e => e.2)).map Prod.fst

/-- A sequence of `requestPublish` calls, one after the other, with no drain
pass in between: the registry after the last call. -/
def requestAll (reqs : List RosPublisher) (m : Publishers) : Publishers :=
  reqs.foldl (fun r c => (requestPublish c r).publishers) m

/-- A callback in which the flag of channel `x` is set again while
`x->publish()` runs; the calls of the other channels leave the registry alone. -/
def redirty (x : RosPublisher) : RosPublisher → Publishers → Publishers :=
  fun c r => if c = x then Publishers.setSecond r x true else r

/-- The teardown log line of the destructor. -/
def teardownLog : Event :=
  Event.log "RosPublishActivity" LogLevel.Info "RosPublishActivity cleans up: no more work."

/-- Event `a` occurs in `evs` and `b` occurs after its first occurrence. -/
def occursBefore (a b : Event) (evs : List Event) : Prop :=
  a ∈ evs ∧ b ∈ evs.drop (evs.indexOf a + 1)

instance (a b : Event) (evs : List Event) : Decidable (occursBefore a b evs) :=
  inferInstanceAs (Decidable (a ∈ evs ∧ b ∈ evs.drop (evs.indexOf a + 1)))

/-- Every live handle owns the object the weak slot refers to. -/
def Process.Coherent (w : Process) : Prop :=
  ∀ i ∈ w.handles, w.ros_pub_act = some i

/-- The calls a client thread or the activity makes on the registry. -/
inductive RegOp
  /-- A call `addPublisher(p)`. -/
  | add (p : RosPublisher)
  /-- A call `removePublisher(p)`. -/
  | remove (p : RosPublisher)
  /-- A call `requestPublish(p)`. -/
  | request (p : RosPublisher)
  /-- One drain pass: a run of `loop()`. -/
  | drain
  deriving DecidableEq, Repr

/-- The state of a sequential run of calls: the registry, the events so far and
whether an assertion has failed (the program has then stopped). -/
structure Run where
  /-- The registry. -/
  publishers : Publishers
  /-- The events of the calls made so far, in order. -/
  events : List Event
  /-- An `assert` has failed: no further call executes. -/
  aborted : Bool
  deriving DecidableEq, Repr

/-- A run that starts on registry `m` with no event yet. -/
def Run.start (m : Publishers) : Run :=
  { publishers := m, events := [], aborted := false }

/-- One call on the registry; `none` only when a drain pass does not return. -/
def RegOp.exec (publish : RosPublisher → Publishers → Publishers) (o : RegOp) (s : Run) :
    Option Run :=
  if s.aborted then some s
  else
    match o with
    | RegOp.add p =>
      some { s with
        publishers := (addPublisher p s.publishers).1
        events := s.events ++ (addPublisher p s.publishers).2 }
    | RegOp.remove p =>
      some { s with
        publishers := (removePublisher p s.publishers).1
        events := s.events ++ (removePublisher p s.publishers).2 }
    | RegOp.request p =>
      some { publishers := (requestPublish p s.publishers).publishers
             events := s.events ++ (requestPublish p s.publishers).events
             aborted := (requestPublish p s.publishers).ret.isNone }
    | RegOp.drain =>
      (loop publish s.publishers.length s.publishers).map
        (fun r => { s with publishers := r.1, events := s.events ++ r.2 })

/-- A sequence of calls, one after the other. -/
def runOps (publish : RosPublisher → Publishers → Publishers) :
    List RegOp → Run → Option Run
  | [], s => some s
  | o :: rest, s => (o.exec publish s).bind (runOps publish rest)

/-- Some `addPublisher(p)` in the sequence is followed, later, by a `requestPublish(p)`. -/
def requestedAfterAdd (p : RosPublisher) : List RegOp → Bool
  | [] => false
  | o :: rest =>
    (decide (o = RegOp.add p) && decide (RegOp.request p ∈ rest)) || requestedAfterAdd p rest

/-- The state of the `for` loop of `loop()` between two iterations. -/
structure LoopState where
  /-- The registry. -/
  publishers : Publishers
  /-- The iterator, as the key it points at; `none` is `end()`. -/
  it : Option RosPublisher
  /-- The events of the iterations made so far. -/
  events : List Event
  deriving DecidableEq, Repr

/-- One iteration of the `for` loop of `loop()` at the iterator `it`: the body
and the increment. At `end()` nothing happens; `none` when the iterator points
at no node. -/
def loopBody (publish : RosPublisher → Publishers → Publishers) (s : LoopState) :
    Option LoopState :=
  match s.it with
  | none => some s
  | some k =>
    match Publishers.find s.publishers k with
    | none => none
    | some false =>
      some { s with
        it := Publishers.next s.publishers k
        events := s.events ++ [Event.readSecond k] }
    | some true =>
      let m1 := Publishers.setSecond s.publishers k false
      let m2 := publish k m1
      if (Publishers.find m2 k).isSome then
        some { publishers := m2
               it := Publishers.next m2 k
               events := s.events ++
                 [Event.readSecond k, Event.setSecond k false, Event.publish k] }
      else none

/-- The first `n` iterations of the `for` loop of `loop()`. -/
def loopSteps (publish : RosPublisher → Publishers → Publishers) :
    Nat → LoopState → Option LoopState
  | 0, s => some s
  | n + 1, s => (loopBody publish s).bind (loopSteps publish n)

/-- The state of the `for` loop of `loop()` on entry: the lock is taken and the
iterator is at `begin()`. -/
def loopEntry (m : Publishers) : LoopState :=
  { publishers := m, it := Publishers.begin m, events := [Event.lock] }

/-- The events that the class performs under `map_lock`: the reads and writes
of the registry and the calls of `publish()`. -/
def guarded : Event → Bool
  | Event.find _ => true
  | Event.assign _ _ => true
  | Event.erase _ => true
  | Event.readSecond _ => true
  | Event.setSecond _ _ => true
  | Event.publish _ => true
  | _ => false

/-- Whether the thread holds `map_lock` after an event, given whether it held it before. -/
def heldAfterEvent (held : Bool) : Event → Bool
  | Event.lock => true
  | Event.unlock => false
  | _ => held

/-- Whether the thread holds `map_lock` after a sequence of its events. -/
def heldAfter (held : Bool) (evs : List Event) : Bool :=
  evs.foldl heldAfterEvent held

/-- In the events of one thread: the lock is taken only when not held, released
only when held, and every guarded event happens while it is held. -/
def wellLocked : Bool → List Event → Bool
  | _, [] => true
  | held, e :: rest =>
    (match e with
      | Event.lock => !held
      | Event.unlock => held
      | _ => !guarded e || held) && wellLocked (heldAfterEvent held e) rest

/-- The owner of `map_lock` after an event of thread `te.1`. -/
def ownerAfterEvent (owner : Option Nat) (te : Nat × Event) : Option Nat :=
  match te.2 with
  | Event.lock => some te.1
  | Event.unlock => none
  | _ => owner

/-- The owner of `map_lock` after an interleaving of events of several threads. -/
def ownerAfter (owner : Option Nat) (tr : List (Nat × Event)) : Option Nat :=
  tr.foldl ownerAfterEvent owner

/-- The semantics of `os::Mutex` on an interleaving of the events of several
threads: `lock` happens only when no thread owns the mutex (else the thread
blocks), and only the owner unlocks. -/
def mutexOk : Option Nat → List (Nat × Event) → Bool
  | _, [] => true
  | owner, te :: rest =>
    (match te.2 with
      | Event.lock => decide (owner = none)
      | Event.unlock => decide (owner = some te.1)
      | _ => true) && mutexOk (ownerAfterEvent owner te) rest

/-- The events of thread `t` in an interleaving. -/
def threadEvents (t : Nat) (tr : List (Nat × Event)) : List Event :=
  (tr.filter (fun te => decide (te.1 = t))).map Prod.snd

/-- An interleaving of two threads: thread 0 runs a drain pass on the registry
`[(1, true)]`, then thread 1 calls `requestPublish(1)`. -/
def interleavingExample : List (Nat × Event) :=
  [(0, Event.lock), (0, Event.readSecond 1), (0, Event.setSecond 1 false),
    (0, Event.publish 1), (0, Event.unlock),
    (1, Event.lock), (1, Event.find 1), (1, Event.setSecond 1 true), (1, Event.unlock),
    (1, Event.trigger)]

/-! ## Lemmas on the registry -/

namespace Publishers

theorem find_eq_none_iff (m : Publishers) (p : RosPublisher) :
    find m p = none ↔ p ∉ keys m := by
  induction m with
  | nil => simp [find, keys]
  | cons e rest ih =>
    obtain ⟨k, v⟩ := e
    by_cases h : k = p
    · simp [find, keys, h]
    · have h2 : ¬ p = k := fun e => h e.symm
      simp only [keys] at ih
      simp [find, keys, h, h2, ih]

theorem find_isSome_iff (m : Publishers) (p : RosPublisher) :
    (find m p).isSome ↔ p ∈ keys m := by
  rw [← not_iff_not, ← find_eq_none_iff]
  cases find m p <;> simp

theorem keys_setSecond (m : Publishers) (p : RosPublisher) (b : Bool) :
    keys (setSecond m p b) = keys m := by
  induction m with
  | nil => rfl
  | cons e rest ih =>
    obtain ⟨k, v⟩ := e
    simp only [keys] at ih
    by_cases h : k = p <;> simp [setSecond, keys, h, ih]

theorem find_setSecond (m : Publishers) (p q : RosPublisher) (b : Bool) :
    find (setSecond m p b) q = if q = p then (find m p).map (fun _ => b) else find m q := by
  induction m with
  | nil => simp [setSecond, find]
  | cons e rest ih =>
    obtain ⟨k, v⟩ := e
    by_cases h : k = p
    · subst h
      by_cases hq : q = k
      · subst hq
        simp [setSecond, find]
      · have hq2 : ¬ k = q := fun e => hq e.symm
        simp [setSecond, find, hq, hq2]
    · by_cases hq : k = q
      · subst hq
        simp [setSecond, find, h]
      · simp [setSecond, find, h, hq, ih]

theorem find_assign (m : Publishers) (p q : RosPublisher) (b : Bool) :
    find (assign m p b) q = if q = p then some b else find m q := by
  induction m with
  | nil =>
    by_cases hq : q = p
    · simp [assign, find, hq]
    · have hq2 : ¬ p = q := fun e => hq e.symm
      simp [assign, find, hq, hq2]
  | cons e rest ih =>
    obtain ⟨k, v⟩ := e
    by_cases h1 : p < k
    · by_cases hq : q = p
      · simp [assign, find, h1, hq]
      · have hq2 : ¬ p = q := fun e => hq e.symm
        simp [assign, find, h1, hq, hq2]
    · by_cases h2 : p = k
      · subst h2
        by_cases hq : q = p
        · simp [assign, find, hq]
        · have hq2 : ¬ p = q := fun e => hq e.symm
          simp [assign, find, hq, hq2]
      · by_cases hq : k = q
        · subst hq
          have h3 : ¬ k = p := fun e => h2 e.symm
          simp [assign, find, h1, h2, h3]
        · simp [assign, find, h1, h2, hq, ih]

theorem find_erase (m : Publishers) (p q : RosPublisher) :
    find (erase m p) q = if q = p then none else find m q := by
  induction m with
  | nil => simp [erase, find]
  | cons e rest ih =>
    obtain ⟨k, v⟩ := e
    simp only [erase] at ih
    by_cases h : k = p
    · subst h
      by_cases hq : q = k
      · simp [erase, find, List.filter_cons, hq] at ih ⊢
        exact ih
      · have hq2 : ¬ k = q := fun e => hq e.symm
        simp [erase, find, List.filter_cons, hq, hq2] at ih ⊢
        exact ih
    · by_cases hq : k = q
      · subst hq
        simp [erase, find, List.filter_cons, h]
      · simp [erase, find, List.filter_cons, h, hq] at ih ⊢
        exact ih

theorem erase_eq_self (m : Publishers) (p : RosPublisher) (h : find m p = none) :
    erase m p = m := by
  rw [find_eq_none_iff] at h
  unfold erase
  rw [List.filter_eq_self]
  intro e he
  have : e.1 ∈ keys m := List.mem_map_of_mem Prod.fst he
  have hne : e.1 ≠ p := fun hh => h (hh ▸ this)
  simpa using hne

theorem erase_erase (m : Publishers) (p : RosPublisher) :
    erase (erase m p) p = erase m p := by
  unfold erase
  rw [List.filter_filter]
  congr 1
  funext e
  simp

theorem keys_erase (m : Publishers) (p : RosPublisher) :
    keys (erase m p) = (keys m).filter (fun k => decide (k ≠ p)) := by
  induction m with
  | nil => rfl
  | cons e rest ih =>
    obtain ⟨k, v⟩ := e
    simp only [keys, erase] at ih
    by_cases h : k = p
    · simp [keys, erase, List.filter_cons, h] at ih ⊢
      exact ih
    · simp [keys, erase, List.filter_cons, h] at ih ⊢
      exact ih

end Publishers

/-! ## Lemmas on iteration -/

namespace Publishers

theorem keys_append (a b : Publishers) : keys (a ++ b) = keys a ++ keys b := by
  simp [keys]

theorem begin_eq (m : Publishers) : begin m = (keys m).head? := by
  cases m <;> simp [begin, keys]

theorem next_eq (m : Publishers) (k : RosPublisher) :
    next m k = (keys m).find? (fun x => decide (k < x)) := by
  induction m with
  | nil => simp [next, keys]
  | cons e rest ih =>
    obtain ⟨j, v⟩ := e
    simp only [next, keys] at ih
    by_cases h : k < j
    · simp [next, keys, List.find?_cons, h]
    · simp [next, keys, List.find?_cons, h, ih]

theorem find?_gt_of_sorted (pre post : List RosPublisher) (k : RosPublisher)
    (h : (pre ++ k :: post).Pairwise (fun a b => a < b)) :
    (pre ++ k :: post).find? (fun x => decide (k < x)) = post.head? := by
  induction pre with
  | nil =>
    have hk : ∀ x ∈ post, k < x := by
      intro x hx
      exact (List.pairwise_cons.mp h).1 x hx
    cases post with
    | nil => simp [List.find?_cons]
    | cons y ys =>
      have : k < y := hk y (List.mem_cons_self _ _)
      simp [List.find?_cons, this]
  | cons j js ih =>
    have hp := List.pairwise_cons.mp h
    have hj : j < k := hp.1 k (by simp)
    have hnot : ¬ k < j := Nat.lt_asymm hj
    simp only [List.cons_append, List.find?_cons, hnot, decide_False]
    exact ih hp.2

theorem next_of_keys (m : Publishers) (pre post : List RosPublisher) (k : RosPublisher)
    (hk : keys m = pre ++ k :: post) (h : WF m) : next m k = post.head? := by
  rw [next_eq, hk]
  apply find?_gt_of_sorted
  rw [← hk]
  exact h

theorem not_mem_pre_of_sorted (pre post : List RosPublisher) (k : RosPublisher)
    (h : (pre ++ k :: post).Pairwise (fun a b => a < b)) : k ∉ pre := by
  intro hm
  have := (List.pairwise_append.mp h).2.2 k hm k (by simp)
  exact Nat.lt_irrefl k this

theorem not_mem_post_of_sorted (pre post : List RosPublisher) (k : RosPublisher)
    (h : (pre ++ k :: post).Pairwise (fun a b => a < b)) : k ∉ post := by
  intro hm
  have h2 := (List.pairwise_append.mp h).2.1
  have := (List.pairwise_cons.mp h2).1 k hm
  exact Nat.lt_irrefl k this

theorem find_append_of_not_mem (a b : Publishers) (p : RosPublisher) (h : p ∉ keys a) :
    find (a ++ b) p = find b p := by
  induction a with
  | nil => rfl
  | cons e rest ih =>
    obtain ⟨k, v⟩ := e
    have hk : ¬ k = p := by
      intro hh
      apply h
      simp [keys, hh]
    have hr : p ∉ keys rest := by
      intro hh
      apply h
      simp only [keys] at hh
      simp [keys, hh]
    simp [find, hk, ih hr]

theorem setSecond_append_of_not_mem (a b : Publishers) (p : RosPublisher) (v : Bool)
    (h : p ∉ keys a) : setSecond (a ++ b) p v = a ++ setSecond b p v := by
  induction a with
  | nil => rfl
  | cons e rest ih =>
    obtain ⟨k, w⟩ := e
    have hk : ¬ k = p := by
      intro hh
      apply h
      simp [keys, hh]
    have hr : p ∉ keys rest := by
      intro hh
      apply h
      simp only [keys] at hh
      simp [keys, hh]
    simp [setSecond, hk, ih hr]

end Publishers

/-! ## The drain pass with a callback that leaves the registry alone -/

theorem keys_clearAll (m : Publishers) : Publishers.keys (clearAll m) = Publishers.keys m := by
  simp [clearAll, Publishers.keys]

theorem find_clearAll (m : Publishers) (p : RosPublisher) :
    Publishers.find (clearAll m) p = (Publishers.find m p).map (fun _ => false) := by
  induction m with
  | nil => rfl
  | cons e rest ih =>
    obtain ⟨k, v⟩ := e
    simp only [clearAll] at ih
    by_cases h : k = p <;> simp [clearAll, Publishers.find, h, ih]

theorem published_append (a b : List Event) : published (a ++ b) = published a ++ published b := by
  induction a with
  | nil => rfl
  | cons e rest ih => cases e <;> simp [published, ih]

theorem published_passEvents (m : Publishers) : published (passEvents m) = dirtyKeys m := by
  induction m with
  | nil => rfl
  | cons e rest ih =>
    obtain ⟨k, v⟩ := e
    simp only [dirtyKeys] at ih
    cases v <;> simp [passEvents, published, dirtyKeys, ih]

theorem dirtyKeys_clearAll (m : Publishers) : dirtyKeys (clearAll m) = [] := by
  induction m with
  | nil => rfl
  | cons e rest ih =>
    simp only [dirtyKeys, clearAll] at ih
    simp [dirtyKeys, clearAll, ih]

theorem loopFrom_noEffect (suf : Publishers) :
    ∀ (pre : Publishers) (fuel : Nat), Publishers.WF (pre ++ suf) → suf.length ≤ fuel →
      loopFrom noEffect fuel (Publishers.begin suf) (pre ++ suf)
        = some (pre ++ clearAll suf, passEvents suf) := by
  induction suf with
  | nil =>
    intro pre fuel _ _
    cases fuel <;> simp [Publishers.begin, loopFrom, clearAll, passEvents]
  | cons e post ih =>
    intro pre fuel hwf hfuel
    obtain ⟨k, v⟩ := e
    cases fuel with
    | zero => simp at hfuel
    | succ f =>
      have hf : post.length ≤ f := by simpa using hfuel
      have hsorted : (Publishers.keys pre ++ k :: Publishers.keys post).Pairwise
          (fun a b => a < b) := by
        have := hwf
        simpa [Publishers.WF, Publishers.keys] using this
      have hnot : k ∉ Publishers.keys pre := Publishers.not_mem_pre_of_sorted _ _ _ hsorted
      have hfind : Publishers.find (pre ++ (k, v) :: post) k = some v := by
        rw [Publishers.find_append_of_not_mem _ _ _ hnot]
        simp [Publishers.find]
      have hwf2 : Publishers.WF ((pre ++ [(k, false)]) ++ post) := by
        simpa [Publishers.WF, Publishers.keys] using hsorted
      have hnext : ∀ w, Publishers.next (pre ++ (k, w) :: post) k = Publishers.begin post := by
        intro w
        rw [Publishers.begin_eq]
        apply Publishers.next_of_keys _ (Publishers.keys pre) (Publishers.keys post)
        · simp [Publishers.keys]
        · simpa [Publishers.WF, Publishers.keys] using hsorted
      have hrec := ih (pre ++ [(k, false)]) f hwf2 hf
      simp only [List.append_assoc, List.singleton_append] at hrec
      have hbegin : Publishers.begin ((k, v) :: post) = some k := by simp [Publishers.begin]
      rw [hbegin]
      unfold loopFrom
      rw [hfind]
      cases v with
      | false =>
        simp only [hnext, hrec]
        simp [clearAll, passEvents]
      | true =>
        have hset : Publishers.setSecond (pre ++ (k, true) :: post) k false
            = pre ++ (k, false) :: post := by
          rw [Publishers.setSecond_append_of_not_mem _ _ _ _ hnot]
          simp [Publishers.setSecond]
        have hfind2 : Publishers.find (pre ++ (k, false) :: post) k = some false := by
          rw [Publishers.find_append_of_not_mem _ _ _ hnot]
          simp [Publishers.find]
        simp only [noEffect, hset, hfind2, hnext, hrec]
        simp [clearAll, passEvents]

theorem loop_noEffect (m : Publishers) (fuel : Nat) (hwf : Publishers.WF m)
    (hfuel : m.length ≤ fuel) :
    loop noEffect fuel m
      = some (clearAll m, Event.lock :: (passEvents m ++ [Event.unlock])) := by
  have h := loopFrom_noEffect m [] fuel (by simpa using hwf) hfuel
  simp only [List.nil_append] at h
  simp [loop, h]

theorem count_dirtyKeys (m : Publishers) (hwf : Publishers.WF m) (p : RosPublisher) :
    (dirtyKeys m).count p = if Publishers.find m p = some true then 1 else 0 := by
  induction m with
  | nil => simp [dirtyKeys, Publishers.find]
  | cons e rest ih =>
    obtain ⟨k, v⟩ := e
    have hp := List.pairwise_cons.mp (show (k :: Publishers.keys rest).Pairwise
      (fun a b => a < b) by simpa [Publishers.WF, Publishers.keys] using hwf)
    have ih2 := ih hp.2
    simp only [dirtyKeys] at ih2
    by_cases h : k = p
    · subst h
      have hnone : Publishers.find rest k = none := by
        rw [Publishers.find_eq_none_iff]
        intro hm
        exact Nat.lt_irrefl k (hp.1 k hm)
      rw [hnone] at ih2
      cases v <;> simp [dirtyKeys, Publishers.find, List.filter_cons] at ih2 ⊢
      · exact ih2
      · exact ih2
    · cases v <;> simp [dirtyKeys, Publishers.find, List.filter_cons, h, List.count_cons] at ih2 ⊢
      · exact ih2
      · exact ih2

/-! ## Requests -/

theorem requestPublish_publishers (m : Publishers) (c : RosPublisher) :
    (requestPublish c m).publishers = Publishers.setSecond m c true := by
  unfold requestPublish
  cases h : Publishers.find m c with
  | some v => rfl
  | none =>
    simp only
    have hk := (Publishers.find_eq_none_iff m c).mp h
    clear h
    induction m with
    | nil => rfl
    | cons e rest ih =>
      obtain ⟨k, v⟩ := e
      have h1 : ¬ k = c := by
        intro hh
        apply hk
        simp [Publishers.keys, hh]
      have h2 : c ∉ Publishers.keys rest := by
        intro hh
        apply hk
        simp only [Publishers.keys] at hh
        simp [Publishers.keys, hh]
      simp [Publishers.setSecond, h1, ← ih h2]

theorem requestAll_cons (c : RosPublisher) (cs : List RosPublisher) (m : Publishers) :
    requestAll (c :: cs) m = requestAll cs (Publishers.setSecond m c true) := by
  simp [requestAll, requestPublish_publishers]

theorem keys_requestAll (reqs : List RosPublisher) :
    ∀ m : Publishers, Publishers.keys (requestAll reqs m) = Publishers.keys m := by
  induction reqs with
  | nil => intro m; rfl
  | cons c cs ih =>
    intro m
    rw [requestAll_cons, ih, Publishers.keys_setSecond]

theorem find_requestAll (reqs : List RosPublisher) (q : RosPublisher) :
    ∀ m : Publishers, Publishers.find (requestAll reqs m) q
      = if q ∈ reqs then (Publishers.find m q).map (fun _ => true) else Publishers.find m q := by
  induction reqs with
  | nil => intro m; simp [requestAll]
  | cons c cs ih =>
    intro m
    rw [requestAll_cons, ih, Publishers.find_setSecond]
    by_cases h1 : q = c
    · subst h1
      by_cases h2 : q ∈ cs
      · cases Publishers.find m q <;> simp [h2]
      · simp [h2]
    · by_cases h2 : q ∈ cs
      · simp [h1, h2]
      · simp [h1, h2]

theorem wf_of_keys_eq (a b : Publishers) (h : Publishers.keys a = Publishers.keys b)
    (hb : Publishers.WF b) : Publishers.WF a := by
  unfold Publishers.WF at hb ⊢
  rw [h]
  exact hb

theorem length_of_keys_eq (a b : Publishers) (h : Publishers.keys a = Publishers.keys b) :
    a.length = b.length := by
  have := congrArg List.length h
  simpa [Publishers.keys] using this

/-! ## Drain pass: which channels are published -/

/-- C1: for every well-formed registry, one drain pass whose `publish()` calls
do not modify the registry returns, and it invokes `publish()` exactly once on
each entry whose dirty flag is true at the start of the pass and zero times on
every other channel (flag false, or not registered). -/
theorem loop_publishes_exactly_dirty (publish : RosPublisher → Publishers → Publishers)
    (m : Publishers) (fuel : Nat) (hpub : ∀ k r, publish k r = r)
    (hwf : Publishers.WF m) (hfuel : m.length ≤ fuel) :
    ∃ r, loop publish fuel m = some r ∧
      ∀ p, (published r.2).count p = if Publishers.find m p = some true then 1 else 0 := by
  have hp : publish = noEffect := by
    funext k r
    exact hpub k r
  subst hp
  refine ⟨_, loop_noEffect m fuel hwf hfuel, ?_⟩
  intro p
  simp only [published, published_append, published_passEvents, List.append_nil]
  exact count_dirtyKeys m hwf p

theorem loop_publishes_exactly_dirty_witness :
    (∀ k r, noEffect k r = r) ∧ Publishers.WF [(1, false), (2, true), (3, false)] ∧
    [(1, false), (2, true), (3, false)].length ≤ 3 ∧
    ∃ r, loop noEffect 3 [(1, false), (2, true), (3, false)] = some r ∧
      ∀ p, (published r.2).count p
        = if Publishers.find [(1, false), (2, true), (3, false)] p = some true then 1 else 0 :=
  ⟨fun _ _ => rfl, by decide, by decide,
    loop_publishes_exactly_dirty noEffect [(1, false), (2, true), (3, false)] 3
      (fun _ _ => rfl) (by decide) (by decide)⟩

/-- C2 (coalescing): after any sequence of `requestPublish` calls on
registered channels with no drain pass in between, the next drain pass invokes
`publish()` exactly once on each requested channel, however often it was
requested, and zero times on every registered channel that was clean before
and not requested. -/
theorem requests_coalesce (publish : RosPublisher → Publishers → Publishers)
    (m : Publishers) (reqs : List RosPublisher) (fuel : Nat)
    (hpub : ∀ k r, publish k r = r) (hwf : Publishers.WF m)
    (hreg : ∀ c ∈ reqs, Publishers.find m c ≠ none) (hfuel : m.length ≤ fuel) :
    ∃ r, loop publish fuel (requestAll reqs m) = some r ∧
      (∀ c ∈ reqs, (published r.2).count c = 1) ∧
      (∀ q, Publishers.find m q = some false → q ∉ reqs → (published r.2).count q = 0) := by
  have hk := keys_requestAll reqs m
  obtain ⟨r, hr, hcount⟩ := loop_publishes_exactly_dirty publish (requestAll reqs m) fuel hpub
    (wf_of_keys_eq _ _ hk hwf) (by rw [length_of_keys_eq _ _ hk]; exact hfuel)
  refine ⟨r, hr, ?_, ?_⟩
  · intro c hc
    rw [hcount c, find_requestAll, if_pos hc]
    have := hreg c hc
    cases h : Publishers.find m c with
    | none => exact absurd h this
    | some v => simp
  · intro q hq hnot
    rw [hcount q, find_requestAll, if_neg hnot, hq]
    simp

theorem requests_coalesce_witness :
    (∀ k r, noEffect k r = r) ∧ Publishers.WF [(1, false), (2, false), (3, false)] ∧
    (∀ c ∈ ([1, 3, 1] : List RosPublisher),
      Publishers.find [(1, false), (2, false), (3, false)] c ≠ none) ∧
    [(1, false), (2, false), (3, false)].length ≤ 3 ∧
    (loop noEffect 3 (requestAll [1, 3, 1] [(1, false), (2, false), (3, false)])).map
      (fun r => published r.2) = some [1, 3] ∧
    ∃ r, loop noEffect 3 (requestAll [1, 3, 1] [(1, false), (2, false), (3, false)]) = some r ∧
      (∀ c ∈ ([1, 3, 1] : List RosPublisher), (published r.2).count c = 1) ∧
      (∀ q, Publishers.find [(1, false), (2, false), (3, false)] q = some false →
        q ∉ ([1, 3, 1] : List RosPublisher) → (published r.2).count q = 0) :=
  ⟨fun _ _ => rfl, by decide, by decide, by decide, by decide,
    requests_coalesce noEffect [(1, false), (2, false), (3, false)] [1, 3, 1] 3
      (fun _ _ => rfl) (by decide) (by decide) (by decide)⟩

/-! ## requestPublish -/

/-- C4: for a registered channel `p`, `requestPublish(p)` returns true, leaves
`p` registered with dirty flag true whatever the flag was, and leaves the
registered channels and the flag of every other channel unchanged. -/
theorem requestPublish_registered (m : Publishers) (p : RosPublisher)
    (hreg : Publishers.find m p ≠ none) :
    (requestPublish p m).ret = some true ∧
    Publishers.find (requestPublish p m).publishers p = some true ∧
    Publishers.keys (requestPublish p m).publishers = Publishers.keys m ∧
    ∀ q, q ≠ p → Publishers.find (requestPublish p m).publishers q = Publishers.find m q := by
  refine ⟨?_, ?_, ?_, ?_⟩
  · unfold requestPublish
    cases h : Publishers.find m p with
    | none => exact absurd h hreg
    | some v => rfl
  · rw [requestPublish_publishers, Publishers.find_setSecond]
    cases h : Publishers.find m p with
    | none => exact absurd h hreg
    | some v => simp
  · rw [requestPublish_publishers, Publishers.keys_setSecond]
  · intro q hq
    rw [requestPublish_publishers, Publishers.find_setSecond, if_neg hq]

theorem requestPublish_registered_witness :
    Publishers.find [(1, true), (2, false), (3, false)] 2 ≠ none ∧
    (requestPublish 2 [(1, true), (2, false), (3, false)]).ret = some true ∧
    Publishers.find (requestPublish 2 [(1, true), (2, false), (3, false)]).publishers 2
      = some true ∧
    Publishers.keys (requestPublish 2 [(1, true), (2, false), (3, false)]).publishers
      = Publishers.keys [(1, true), (2, false), (3, false)] ∧
    ∀ q, q ≠ 2 →
      Publishers.find (requestPublish 2 [(1, true), (2, false), (3, false)]).publishers q
        = Publishers.find [(1, true), (2, false), (3, false)] q :=
  ⟨by decide, requestPublish_registered [(1, true), (2, false), (3, false)] 2 (by decide)⟩

/-- C5: `requestPublish(p)` fails its assertion if and only if `p` is not in
the registry at the time of the call; the call then does not return, the
registry is left as it was (no entry created, no flag changed) and no trigger
is issued. -/
theorem requestPublish_assertion (m : Publishers) (p : RosPublisher) :
    (Event.assertFail ∈ (requestPublish p m).events ↔ Publishers.find m p = none) ∧
    ((requestPublish p m).ret = none ↔ Publishers.find m p = none) ∧
    (Publishers.find m p = none →
      (requestPublish p m).publishers = m ∧
      Event.trigger ∉ (requestPublish p m).events ∧
      (∀ b q, Event.setSecond q b ∉ (requestPublish p m).events) ∧
      (requestPublish p m).ret ≠ some true) := by
  unfold requestPublish
  cases h : Publishers.find m p with
  | none => simp
  | some v => simp

theorem requestPublish_assertion_witness :
    Publishers.find [(1, true), (3, false)] 2 = none ∧
    (requestPublish 2 [(1, true), (3, false)]).publishers = [(1, true), (3, false)] ∧
    Event.trigger ∉ (requestPublish 2 [(1, true), (3, false)]).events ∧
    (∀ b q, Event.setSecond q b ∉ (requestPublish 2 [(1, true), (3, false)]).events) ∧
    (requestPublish 2 [(1, true), (3, false)]).ret ≠ some true :=
  ⟨by decide, (requestPublish_assertion [(1, true), (3, false)] 2).2.2 (by decide)⟩

/-! ## addPublisher and removePublisher -/

/-- C6: after `addPublisher(p)` the registry contains `p` with dirty flag
false, whether `p` was absent or already registered (a true flag is
overwritten), and every other entry and its flag are unchanged. -/
theorem addPublisher_registers_clean (m : Publishers) (p : RosPublisher) :
    Publishers.find (addPublisher p m).1 p = some false ∧
    ∀ q, q ≠ p → Publishers.find (addPublisher p m).1 q = Publishers.find m q := by
  constructor
  · simp [addPublisher, Publishers.find_assign]
  · intro q hq
    simp [addPublisher, Publishers.find_assign, hq]

/-- C7: `removePublisher` is total and idempotent: on a registry without `p`
it changes nothing, twice is the same as once, and when `p` is present exactly
the entry of `p` is removed while every other entry and flag is unchanged. -/
theorem removePublisher_idempotent (m : Publishers) (p : RosPublisher) :
    (Publishers.find m p = none → (removePublisher p m).1 = m) ∧
    (removePublisher p (removePublisher p m).1).1 = (removePublisher p m).1 ∧
    Publishers.find (removePublisher p m).1 p = none ∧
    (∀ q, q ≠ p → Publishers.find (removePublisher p m).1 q = Publishers.find m q) ∧
    Publishers.keys (removePublisher p m).1
      = (Publishers.keys m).filter (fun k => decide (k ≠ p)) := by
  refine ⟨?_, ?_, ?_, ?_, ?_⟩
  · intro h
    exact Publishers.erase_eq_self m p h
  · exact Publishers.erase_erase m p
  · simp [removePublisher, Publishers.find_erase]
  · intro q hq
    simp [removePublisher, Publishers.find_erase, hq]
  · exact Publishers.keys_erase m p

theorem removePublisher_idempotent_witness :
    Publishers.find [(1, true), (3, false)] 2 = none ∧
    (removePublisher 2 [(1, true), (3, false)]).1 = [(1, true), (3, false)] ∧
    (removePublisher 3 [(1, true), (3, false)]).1 = [(1, true)] :=
  ⟨by decide, (removePublisher_idempotent [(1, true), (3, false)] 2).1 (by decide), by decide⟩

/-! ## After a drain pass -/

/-- C10: after a drain pass whose `publish()` calls do not modify the
registry, the registered channels are the same as before and every entry has
dirty flag false; a second drain pass run immediately afterwards invokes
`publish()` on no entry. -/
theorem loop_clears_all_flags (publish : RosPublisher → Publishers → Publishers)
    (m : Publishers) (fuel : Nat) (hpub : ∀ k r, publish k r = r)
    (hwf : Publishers.WF m) (hfuel : m.length ≤ fuel) :
    ∃ r, loop publish fuel m = some r ∧
      Publishers.keys r.1 = Publishers.keys m ∧
      (∀ p, Publishers.find m p ≠ none → Publishers.find r.1 p = some false) ∧
      ∃ r2, loop publish fuel r.1 = some r2 ∧ published r2.2 = [] := by
  have hp : publish = noEffect := by
    funext k r
    exact hpub k r
  subst hp
  have hk := keys_clearAll m
  refine ⟨_, loop_noEffect m fuel hwf hfuel, hk, ?_, _,
    loop_noEffect (clearAll m) fuel (wf_of_keys_eq _ _ hk hwf)
      (by rw [length_of_keys_eq _ _ hk]; exact hfuel), ?_⟩
  · intro p hp
    simp only [find_clearAll]
    cases h : Publishers.find m p with
    | none => exact absurd h hp
    | some v => rfl
  · simp only [published, published_append, published_passEvents, List.append_nil]
    exact dirtyKeys_clearAll m

theorem loop_clears_all_flags_witness :
    (∀ k r, noEffect k r = r) ∧
    Publishers.WF (requestPublish 2 [(1, false), (2, false), (3, false)]).publishers ∧
    (requestPublish 2 [(1, false), (2, false), (3, false)]).publishers.length ≤ 3 ∧
    (loop noEffect 3 (requestPublish 2 [(1, false), (2, false), (3, false)]).publishers).map
      (fun r => published r.2) = some [2] ∧
    ∃ r, loop noEffect 3 (requestPublish 2 [(1, false), (2, false), (3, false)]).publishers
        = some r ∧
      Publishers.keys r.1
        = Publishers.keys (requestPublish 2 [(1, false), (2, false), (3, false)]).publishers ∧
      (∀ p, Publishers.find (requestPublish 2 [(1, false), (2, false), (3, false)]).publishers p
        ≠ none → Publishers.find r.1 p = some false) ∧
      ∃ r2, loop noEffect 3 r.1 = some r2 ∧ published r2.2 = [] :=
  ⟨fun _ _ => rfl, by decide, by decide, by decide,
    loop_clears_all_flags noEffect (requestPublish 2 [(1, false), (2, false), (3, false)]).publishers
      3 (fun _ _ => rfl) (by decide) (by decide)⟩

/-! ## The drain pass with a callback that sets flags -/

theorem loopFrom_end (publish : RosPublisher → Publishers → Publishers) (fuel : Nat)
    (m : Publishers) : loopFrom publish fuel none m = some (m, []) := by
  cases fuel <;> simp [loopFrom]

theorem loopFrom_clean (publish : RosPublisher → Publishers → Publishers) (fuel : Nat)
    (k : RosPublisher) (m : Publishers) (h : Publishers.find m k = some false) :
    loopFrom publish (fuel + 1) (some k) m
      = (loopFrom publish fuel (Publishers.next m k) m).map
          (fun r => (r.1, Event.readSecond k :: r.2)) := by
  rw [loopFrom]
  simp [h]

theorem loopFrom_dirty (publish : RosPublisher → Publishers → Publishers) (fuel : Nat)
    (k : RosPublisher) (m : Publishers) (h : Publishers.find m k = some true)
    (h2 : Publishers.find (publish k (Publishers.setSecond m k false)) k ≠ none) :
    loopFrom publish (fuel + 1) (some k) m
      = (loopFrom publish fuel
          (Publishers.next (publish k (Publishers.setSecond m k false)) k)
          (publish k (Publishers.setSecond m k false))).map
          (fun r => (r.1,
            Event.readSecond k :: Event.setSecond k false :: Event.publish k :: r.2)) := by
  rw [loopFrom]
  have h3 : (Publishers.find (publish k (Publishers.setSecond m k false)) k).isSome = true := by
    cases hh : Publishers.find (publish k (Publishers.setSecond m k false)) k with
    | none => exact absurd hh h2
    | some v => rfl
  simp [h, h3]

theorem find_ne_none_of_keys (m : Publishers) (pre post : List RosPublisher) (k : RosPublisher)
    (hk : Publishers.keys m = pre ++ k :: post) : Publishers.find m k ≠ none := by
  intro h
  rw [Publishers.find_eq_none_iff, hk] at h
  exact h (by simp)

theorem loopFrom_keeps_flag (publish : RosPublisher → Publishers → Publishers)
    (x : RosPublisher)
    (hkeys : ∀ k r, Publishers.keys (publish k r) = Publishers.keys r)
    (hkeep : ∀ k r, Publishers.find r x = some true → Publishers.find (publish k r) x = some true)
    (suf : List RosPublisher) :
    ∀ (pre : List RosPublisher) (m : Publishers) (fuel : Nat),
      Publishers.keys m = pre ++ suf → (pre ++ suf).Pairwise (fun a b => a < b) →
      x ∈ pre → Publishers.find m x = some true → suf.length ≤ fuel →
      ∃ r, loopFrom publish fuel suf.head? m = some r ∧
        Publishers.keys r.1 = Publishers.keys m ∧ Publishers.find r.1 x = some true := by
  induction suf with
  | nil =>
    intro pre m fuel _ _ _ hx _
    exact ⟨(m, []), loopFrom_end publish fuel m, rfl, hx⟩
  | cons k post ih =>
    intro pre m fuel hk hs hxpre hx hfuel
    cases fuel with
    | zero => simp at hfuel
    | succ f =>
      have hf : post.length ≤ f := by simpa using hfuel
      have hwf : Publishers.WF m := by
        unfold Publishers.WF
        rw [hk]
        exact hs
      have hne : x ≠ k := by
        intro hh
        subst hh
        exact Publishers.not_mem_pre_of_sorted pre post x hs hxpre
      have hs2 : ((pre ++ [k]) ++ post).Pairwise (fun a b => a < b) := by
        simpa using hs
      have hxpre2 : x ∈ pre ++ [k] := by simp [hxpre]
      simp only [List.head?_cons]
      cases hv : Publishers.find m k with
      | none => exact absurd hv (find_ne_none_of_keys m pre post k hk)
      | some v =>
        cases v with
        | false =>
          rw [loopFrom_clean publish f k m hv, Publishers.next_of_keys m pre post k hk hwf]
          obtain ⟨r, hr, hrk, hrx⟩ := ih (pre ++ [k]) m f (by simp [hk]) hs2 hxpre2 hx hf
          exact ⟨(r.1, Event.readSecond k :: r.2), by simp [hr], hrk, hrx⟩
        | true =>
          have hk2 : Publishers.keys (publish k (Publishers.setSecond m k false))
              = pre ++ k :: post := by
            rw [hkeys, Publishers.keys_setSecond, hk]
          have hwf2 : Publishers.WF (publish k (Publishers.setSecond m k false)) := by
            unfold Publishers.WF
            rw [hk2]
            exact hs
          have hx1 : Publishers.find (Publishers.setSecond m k false) x = some true := by
            rw [Publishers.find_setSecond, if_neg hne, hx]
          have hx2 := hkeep k _ hx1
          rw [loopFrom_dirty publish f k m hv (find_ne_none_of_keys _ pre post k hk2),
            Publishers.next_of_keys _ pre post k hk2 hwf2]
          obtain ⟨r, hr, hrk, hrx⟩ := ih (pre ++ [k]) _ f (by simp [hk2]) hs2 hxpre2 hx2 hf
          refine ⟨(r.1, Event.readSecond k :: Event.setSecond k false :: Event.publish k :: r.2),
            by simp [hr], ?_, hrx⟩
          simp only
          rw [hrk, hk2, hk]

theorem loopFrom_redirty (publish : RosPublisher → Publishers → Publishers)
    (x : RosPublisher)
    (hkeys : ∀ k r, Publishers.keys (publish k r) = Publishers.keys r)
    (hset : ∀ r, Publishers.find r x ≠ none → Publishers.find (publish x r) x = some true)
    (hkeep : ∀ k r, Publishers.find r x = some true → Publishers.find (publish k r) x = some true)
    (suf : List RosPublisher) :
    ∀ (pre : List RosPublisher) (m : Publishers) (fuel : Nat),
      Publishers.keys m = pre ++ suf → (pre ++ suf).Pairwise (fun a b => a < b) →
      suf.length ≤ fuel →
      ∃ r, loopFrom publish fuel suf.head? m = some r ∧
        Publishers.keys r.1 = Publishers.keys m ∧
        (x ∈ published r.2 → Publishers.find r.1 x = some true) ∧
        (x ∈ suf → Publishers.find m x = some true → x ∈ published r.2) := by
  induction suf with
  | nil =>
    intro pre m fuel _ _ _
    exact ⟨(m, []), loopFrom_end publish fuel m, rfl, by simp [published], by simp⟩
  | cons k post ih =>
    intro pre m fuel hk hs hfuel
    cases fuel with
    | zero => simp at hfuel
    | succ f =>
      have hf : post.length ≤ f := by simpa using hfuel
      have hwf : Publishers.WF m := by
        unfold Publishers.WF
        rw [hk]
        exact hs
      have hs2 : ((pre ++ [k]) ++ post).Pairwise (fun a b => a < b) := by
        simpa using hs
      simp only [List.head?_cons]
      cases hv : Publishers.find m k with
      | none => exact absurd hv (find_ne_none_of_keys m pre post k hk)
      | some v =>
        cases v with
        | false =>
          rw [loopFrom_clean publish f k m hv, Publishers.next_of_keys m pre post k hk hwf]
          obtain ⟨r, hr, hrk, hr1, hr2⟩ := ih (pre ++ [k]) m f (by simp [hk]) hs2 hf
          refine ⟨(r.1, Event.readSecond k :: r.2), by simp [hr], hrk, ?_, ?_⟩
          · intro hx
            exact hr1 (by simpa [published] using hx)
          · intro hx hd
            have hne : x ≠ k := by
              intro hh
              subst hh
              rw [hv] at hd
              cases hd
            have hxp : x ∈ post := by
              rcases List.mem_cons.mp hx with h | h
              · exact absurd h hne
              · exact h
            simpa [published] using hr2 hxp hd
        | true =>
          have hk2 : Publishers.keys (publish k (Publishers.setSecond m k false))
              = pre ++ k :: post := by
            rw [hkeys, Publishers.keys_setSecond, hk]
          have hwf2 : Publishers.WF (publish k (Publishers.setSecond m k false)) := by
            unfold Publishers.WF
            rw [hk2]
            exact hs
          rw [loopFrom_dirty publish f k m hv (find_ne_none_of_keys _ pre post k hk2),
            Publishers.next_of_keys _ pre post k hk2 hwf2]
          by_cases hxk : x = k
          · subst hxk
            have hx1 : Publishers.find (Publishers.setSecond m x false) x ≠ none := by
              rw [Publishers.find_setSecond, if_pos rfl, hv]
              simp
            have hx2 := hset _ hx1
            obtain ⟨r, hr, hrk, hrx⟩ := loopFrom_keeps_flag publish x hkeys hkeep post
              (pre ++ [x]) _ f (by simp [hk2]) hs2 (by simp) hx2 hf
            refine ⟨(r.1,
              Event.readSecond x :: Event.setSecond x false :: Event.publish x :: r.2),
              by simp [hr], ?_, ?_, ?_⟩
            · simp only
              rw [hrk, hk2, hk]
            · intro _
              exact hrx
            · intro _ _
              simp [published]
          · obtain ⟨r, hr, hrk, hr1, hr2⟩ := ih (pre ++ [k])
              (publish k (Publishers.setSecond m k false)) f (by simp [hk2]) hs2 hf
            refine ⟨(r.1,
              Event.readSecond k :: Event.setSecond k false :: Event.publish k :: r.2),
              by simp [hr], ?_, ?_, ?_⟩
            · simp only
              rw [hrk, hk2, hk]
            · intro hx
              apply hr1
              simpa [published, hxk] using hx
            · intro hx hd
              have hxp : x ∈ post := by
                rcases List.mem_cons.mp hx with h | h
                · exact absurd h hxk
                · exact h
              have hx1 : Publishers.find (Publishers.setSecond m k false) x = some true := by
                rw [Publishers.find_setSecond, if_neg hxk, hd]
              have := hr2 hxp (hkeep k _ hx1)
              simp [published, this]

theorem published_locked (evs : List Event) :
    published (Event.lock :: (evs ++ [Event.unlock])) = published evs := by
  simp [published, published_append]

theorem redirty_keys (x k : RosPublisher) (r : Publishers) :
    Publishers.keys (redirty x k r) = Publishers.keys r := by
  unfold redirty
  split
  · exact Publishers.keys_setSecond r x true
  · rfl

theorem redirty_sets (x : RosPublisher) (r : Publishers) (h : Publishers.find r x ≠ none) :
    Publishers.find (redirty x x r) x = some true := by
  simp only [redirty, if_true, Publishers.find_setSecond]
  cases hh : Publishers.find r x with
  | none => exact absurd hh h
  | some v => rfl

theorem redirty_keeps (x k : RosPublisher) (r : Publishers)
    (h : Publishers.find r x = some true) : Publishers.find (redirty x k r) x = some true := by
  unfold redirty
  split
  · simp [Publishers.find_setSecond, h]
  · exact h

/-- C3: the flag of an entry is cleared before `publish()` is invoked on it.
So when the flag of `x` is set while `x->publish()` runs (the callback of `x`
sets it; no callback registers, deregisters or clears the flag of `x`), a
drain pass that starts with `x` dirty returns and publishes `x`, and in every
pass that publishes `x` the flag of `x` is still true when the pass ends: the
next drain pass returns and invokes `publish()` on `x` again. -/
theorem loop_redirty_survives (publish : RosPublisher → Publishers → Publishers)
    (m : Publishers) (x : RosPublisher) (fuel : Nat)
    (hkeys : ∀ k r, Publishers.keys (publish k r) = Publishers.keys r)
    (hset : ∀ r, Publishers.find r x ≠ none → Publishers.find (publish x r) x = some true)
    (hkeep : ∀ k r, Publishers.find r x = some true → Publishers.find (publish k r) x = some true)
    (hwf : Publishers.WF m) (hfuel : m.length ≤ fuel) :
    ∃ r, loop publish fuel m = some r ∧
      (Publishers.find m x = some true → x ∈ published r.2) ∧
      (x ∈ published r.2 →
        Publishers.find r.1 x = some true ∧
        ∃ r2, loop publish fuel r.1 = some r2 ∧ x ∈ published r2.2) := by
  have hlen : (Publishers.keys m).length ≤ fuel := by simpa [Publishers.keys] using hfuel
  obtain ⟨r, hr, hrk, hr1, hr2⟩ := loopFrom_redirty publish x hkeys hset hkeep
    (Publishers.keys m) [] m fuel rfl hwf hlen
  rw [← Publishers.begin_eq] at hr
  refine ⟨(r.1, Event.lock :: (r.2 ++ [Event.unlock])), by simp [loop, hr], ?_, ?_⟩
  · intro hd
    rw [published_locked]
    apply hr2 _ hd
    rw [← Publishers.find_isSome_iff, hd]
    rfl
  · intro hx
    rw [published_locked] at hx
    have hflag := hr1 hx
    refine ⟨hflag, ?_⟩
    have hwf2 : Publishers.WF r.1 := wf_of_keys_eq _ _ hrk hwf
    have hlen2 : (Publishers.keys r.1).length ≤ fuel := by rw [hrk]; exact hlen
    obtain ⟨s, hs, _, _, hs2⟩ := loopFrom_redirty publish x hkeys hset hkeep
      (Publishers.keys r.1) [] r.1 fuel rfl hwf2 hlen2
    rw [← Publishers.begin_eq] at hs
    refine ⟨(s.1, Event.lock :: (s.2 ++ [Event.unlock])), by simp [loop, hs], ?_⟩
    rw [published_locked]
    apply hs2 _ hflag
    rw [← Publishers.find_isSome_iff, hflag]
    rfl

theorem loop_redirty_survives_witness :
    (∀ k r, Publishers.keys (redirty 2 k r) = Publishers.keys r) ∧
    (∀ r, Publishers.find r 2 ≠ none → Publishers.find (redirty 2 2 r) 2 = some true) ∧
    (∀ k r, Publishers.find r 2 = some true → Publishers.find (redirty 2 k r) 2 = some true) ∧
    Publishers.WF [(1, false), (2, true), (3, true)] ∧
    [(1, false), (2, true), (3, true)].length ≤ 3 ∧
    loop (redirty 2) 3 [(1, false), (2, true), (3, true)]
      = some ([(1, false), (2, true), (3, false)],
          [Event.lock, Event.readSecond 1, Event.readSecond 2, Event.setSecond 2 false,
            Event.publish 2, Event.readSecond 3, Event.setSecond 3 false, Event.publish 3,
            Event.unlock]) ∧
    ∃ r, loop (redirty 2) 3 [(1, false), (2, true), (3, true)] = some r ∧
      (Publishers.find [(1, false), (2, true), (3, true)] 2 = some true → 2 ∈ published r.2) ∧
      (2 ∈ published r.2 →
        Publishers.find r.1 2 = some true ∧
        ∃ r2, loop (redirty 2) 3 r.1 = some r2 ∧ 2 ∈ published r2.2) :=
  ⟨redirty_keys 2, redirty_sets 2, redirty_keeps 2, by decide, by decide, by decide,
    loop_redirty_survives (redirty 2) [(1, false), (2, true), (3, true)] 2 3
      (redirty_keys 2) (redirty_sets 2) (redirty_keeps 2) (by decide) (by decide)⟩

/-! ## The singleton -/

theorem weakLock_of_mem (w : Process) (hw : w.Coherent) (i : Nat) (hi : i ∈ w.handles) :
    weakLock w = some i := by
  unfold weakLock
  rw [hw i hi]
  simp [hi]

theorem weakLock_eq_none_iff (w : Process) (hw : w.Coherent) :
    weakLock w = none ↔ w.handles = [] := by
  constructor
  · intro h
    cases hh : w.handles with
    | nil => rfl
    | cons i rest =>
      have hi : i ∈ w.handles := by simp [hh]
      rw [weakLock_of_mem w hw i hi] at h
      cases h
  · intro h
    unfold weakLock
    cases w.ros_pub_act with
    | none => rfl
    | some i => simp [h]

theorem weakLock_some (w : Process) (i : Nat) (h : weakLock w = some i) :
    w.ros_pub_act = some i ∧ i ∈ w.handles := by
  unfold weakLock at h
  cases hs : w.ros_pub_act with
  | none => simp [hs] at h
  | some j =>
    simp only [hs] at h
    by_cases hj : j ∈ w.handles
    · simp only [hj, if_true, Option.some.injEq] at h
      subst h
      exact ⟨rfl, hj⟩
    · simp [hj] at h

theorem coherent_Instance (w : Process) (hw : w.Coherent) : (Instance w).2.1.Coherent := by
  unfold Instance
  cases h : weakLock w with
  | some i =>
    obtain ⟨hs, _⟩ := weakLock_some w i h
    intro j hj
    simp only [List.mem_cons] at hj
    rcases hj with hj | hj
    · subst hj
      exact hs
    · exact hw j hj
  | none =>
    have hempty := (weakLock_eq_none_iff w hw).mp h
    intro j hj
    simp only [hempty, List.mem_singleton] at hj
    subst hj
    rfl

theorem coherent_copyHandle (i : Nat) (w : Process) (hw : w.Coherent) :
    (copyHandle i w).Coherent := by
  unfold copyHandle
  split
  · rename_i hi
    intro j hj
    simp only [List.mem_cons] at hj
    rcases hj with hj | hj
    · subst hj
      exact hw j hi
    · exact hw j hj
  · exact hw

theorem coherent_release (i : Nat) (w : Process) (hw : w.Coherent) :
    (release i w).1.Coherent := by
  unfold release
  split
  · intro j hj
    exact hw j (List.mem_of_mem_erase hj)
  · exact hw

theorem coherent_run (ops : List Op) : ∀ w : Process, w.Coherent → (run ops w).Coherent := by
  induction ops with
  | nil => intro w hw; exact hw
  | cons o rest ih =>
    intro w hw
    have hstep : (o.apply w).Coherent := by
      cases o with
      | callInstance => exact coherent_Instance w hw
      | callCopy i => exact coherent_copyHandle i w hw
      | callRelease i => exact coherent_release i w hw
    exact ih _ hstep

/-- C8: in every state reached from process start by sequential calls of
`Instance()`, copies and releases of handles: when a handle is still held,
`Instance()` returns the object of that handle, constructs and starts nothing
and leaves the weak slot alone; when no handle is held, `Instance()` constructs
a new object, records it in the weak slot and starts it exactly once; all live
handles own one and the same object; and the weak slot finds a live object
exactly when some handle is held, so the slot alone keeps nothing alive. -/
theorem Instance_singleton (ops : List Op) :
    (∀ i ∈ (run ops Process.init).handles,
      (Instance (run ops Process.init)).1 = i ∧
      (Instance (run ops Process.init)).2.2 = [] ∧
      (Instance (run ops Process.init)).2.1.ros_pub_act = (run ops Process.init).ros_pub_act ∧
      (Instance (run ops Process.init)).2.1.objects = (run ops Process.init).objects) ∧
    ((run ops Process.init).handles = [] →
      (Instance (run ops Process.init)).1 = (run ops Process.init).objects ∧
      (Instance (run ops Process.init)).2.1.ros_pub_act = some (run ops Process.init).objects ∧
      (Instance (run ops Process.init)).2.1.handles = [(run ops Process.init).objects] ∧
      (Instance (run ops Process.init)).2.1.objects = (run ops Process.init).objects + 1 ∧
      (Instance (run ops Process.init)).2.2.filter (fun e => decide (e.2 = Event.start))
        = [((run ops Process.init).objects, Event.start)]) ∧
    (∀ i ∈ (run ops Process.init).handles, ∀ j ∈ (run ops Process.init).handles, i = j) ∧
    (weakLock (run ops Process.init) = none ↔ (run ops Process.init).handles = []) := by
  have hw : (run ops Process.init).Coherent :=
    coherent_run ops Process.init (by intro i hi; simp [Process.init] at hi)
  generalize run ops Process.init = w at hw
  refine ⟨?_, ?_, ?_, weakLock_eq_none_iff w hw⟩
  · intro i hi
    have h := weakLock_of_mem w hw i hi
    simp [Instance, h]
  · intro hempty
    have h := (weakLock_eq_none_iff w hw).mpr hempty
    simp [Instance, h, hempty, constructor]
  · intro i hi j hj
    have h1 := hw i hi
    have h2 := hw j hj
    rw [h1] at h2
    exact (Option.some.inj h2)

theorem Instance_singleton_witness :
    (run [Op.callInstance, Op.callInstance, Op.callRelease 0, Op.callRelease 0]
      Process.init).handles = [] ∧
    (run [Op.callInstance, Op.callInstance, Op.callRelease 0, Op.callRelease 0]
      Process.init).ros_pub_act = some 0 ∧
    (run [Op.callInstance, Op.callInstance, Op.callRelease 0, Op.callRelease 0]
      Process.init).objects = 1 ∧
    (Instance (run [Op.callInstance, Op.callInstance, Op.callRelease 0, Op.callRelease 0]
      Process.init)).1 = 1 ∧
    (Instance (run [Op.callInstance, Op.callInstance, Op.callRelease 0, Op.callRelease 0]
      Process.init)).2.1.ros_pub_act = some 1 :=
  ⟨by decide, by decide, by decide,
    ((Instance_singleton [Op.callInstance, Op.callInstance, Op.callRelease 0,
      Op.callRelease 0]).2.1 (by decide)).1,
    ((Instance_singleton [Op.callInstance, Op.callInstance, Op.callRelease 0,
      Op.callRelease 0]).2.1 (by decide)).2.1⟩

/-! ## Teardown -/

/-- C9, as stated, fails: in the events of the destructor `stop()` does not
come before the teardown log line. -/
theorem destructor_stop_not_before_log :
    ¬ occursBefore Event.stop teardownLog destructor := by
  decide

/-- C9, amended: the destructor first emits the teardown log line and then
stops the background task; `stop()` is its last event, so the task is stopped
when the destructor returns, and the destructor invokes no `publish()`. -/
theorem destructor_logs_then_stops :
    occursBefore teardownLog Event.stop destructor ∧
    destructor.getLast? = some Event.stop ∧
    published destructor = [] := by
  decide

/-! ## Well-formedness is kept by every operation -/

theorem mem_keys_assign (m : Publishers) (p q : RosPublisher) (b : Bool) :
    q ∈ Publishers.keys (Publishers.assign m p b) ↔ q = p ∨ q ∈ Publishers.keys m := by
  rw [← Publishers.find_isSome_iff, ← Publishers.find_isSome_iff, Publishers.find_assign]
  by_cases h : q = p
  · simp [h]
  · simp [h]

theorem wf_cons (k : RosPublisher) (v : Bool) (rest : Publishers) :
    Publishers.WF ((k, v) :: rest) ↔
      (∀ x ∈ Publishers.keys rest, k < x) ∧ Publishers.WF rest := by
  simp [Publishers.WF, Publishers.keys]

theorem wf_assign (m : Publishers) (p : RosPublisher) (b : Bool) (h : Publishers.WF m) :
    Publishers.WF (Publishers.assign m p b) := by
  induction m with
  | nil => simp [Publishers.assign, Publishers.WF, Publishers.keys]
  | cons e rest ih =>
    obtain ⟨k, v⟩ := e
    obtain ⟨hk, hrest⟩ := (wf_cons k v rest).mp h
    by_cases h1 : p < k
    · simp only [Publishers.assign, h1, if_true]
      rw [wf_cons]
      refine ⟨?_, h⟩
      intro x hx
      simp only [Publishers.keys, List.map_cons, List.mem_cons] at hx
      rcases hx with hx | hx
      · rw [hx]; exact h1
      · exact Nat.lt_trans h1 (hk x hx)
    · by_cases h2 : p = k
      · subst h2
        simp only [Publishers.assign, Nat.lt_irrefl, if_false, if_true]
        rw [wf_cons]
        exact ⟨hk, hrest⟩
      · simp only [Publishers.assign, h1, h2, if_false]
        rw [wf_cons]
        refine ⟨?_, ih hrest⟩
        intro x hx
        rcases (mem_keys_assign rest p x b).mp hx with hx | hx
        · rw [hx]
          exact Nat.lt_of_le_of_ne (Nat.le_of_not_lt h1) (fun e => h2 e.symm)
        · exact hk x hx

theorem wf_erase (m : Publishers) (p : RosPublisher) (h : Publishers.WF m) :
    Publishers.WF (Publishers.erase m p) := by
  unfold Publishers.WF at h ⊢
  rw [Publishers.keys_erase]
  exact List.Pairwise.sublist (List.filter_sublist _) h

theorem wf_setSecond (m : Publishers) (p : RosPublisher) (b : Bool) (h : Publishers.WF m) :
    Publishers.WF (Publishers.setSecond m p b) :=
  wf_of_keys_eq _ _ (Publishers.keys_setSecond m p b) h

theorem loopFrom_total (publish : RosPublisher → Publishers → Publishers)
    (hkeys : ∀ k r, Publishers.keys (publish k r) = Publishers.keys r)
    (suf : List RosPublisher) :
    ∀ (pre : List RosPublisher) (m : Publishers) (fuel : Nat),
      Publishers.keys m = pre ++ suf → (pre ++ suf).Pairwise (fun a b => a < b) →
      suf.length ≤ fuel →
      ∃ r, loopFrom publish fuel suf.head? m = some r ∧
        Publishers.keys r.1 = Publishers.keys m := by
  induction suf with
  | nil =>
    intro pre m fuel _ _ _
    exact ⟨(m, []), loopFrom_end publish fuel m, rfl⟩
  | cons k post ih =>
    intro pre m fuel hk hs hfuel
    cases fuel with
    | zero => simp at hfuel
    | succ f =>
      have hf : post.length ≤ f := by simpa using hfuel
      have hwf : Publishers.WF m := by
        unfold Publishers.WF
        rw [hk]
        exact hs
      have hs2 : ((pre ++ [k]) ++ post).Pairwise (fun a b => a < b) := by
        simpa using hs
      simp only [List.head?_cons]
      cases hv : Publishers.find m k with
      | none => exact absurd hv (find_ne_none_of_keys m pre post k hk)
      | some v =>
        cases v with
        | false =>
          rw [loopFrom_clean publish f k m hv, Publishers.next_of_keys m pre post k hk hwf]
          obtain ⟨r, hr, hrk⟩ := ih (pre ++ [k]) m f (by simp [hk]) hs2 hf
          exact ⟨(r.1, Event.readSecond k :: r.2), by simp [hr], hrk⟩
        | true =>
          have hk2 : Publishers.keys (publish k (Publishers.setSecond m k false))
              = pre ++ k :: post := by
            rw [hkeys, Publishers.keys_setSecond, hk]
          have hwf2 : Publishers.WF (publish k (Publishers.setSecond m k false)) := by
            unfold Publishers.WF
            rw [hk2]
            exact hs
          rw [loopFrom_dirty publish f k m hv (find_ne_none_of_keys _ pre post k hk2),
            Publishers.next_of_keys _ pre post k hk2 hwf2]
          obtain ⟨r, hr, hrk⟩ := ih (pre ++ [k])
            (publish k (Publishers.setSecond m k false)) f (by simp [hk2]) hs2 hf
          refine ⟨(r.1,
            Event.readSecond k :: Event.setSecond k false :: Event.publish k :: r.2),
            by simp [hr], ?_⟩
          simp only
          rw [hrk, hk2, hk]

theorem loop_total (publish : RosPublisher → Publishers → Publishers)
    (hkeys : ∀ k r, Publishers.keys (publish k r) = Publishers.keys r)
    (m : Publishers) (fuel : Nat) (hwf : Publishers.WF m) (hfuel : m.length ≤ fuel) :
    ∃ r, loop publish fuel m = some r ∧ Publishers.keys r.1 = Publishers.keys m := by
  have hlen : (Publishers.keys m).length ≤ fuel := by simpa [Publishers.keys] using hfuel
  obtain ⟨r, hr, hrk⟩ := loopFrom_total publish hkeys (Publishers.keys m) [] m fuel rfl hwf hlen
  rw [← Publishers.begin_eq] at hr
  exact ⟨(r.1, Event.lock :: (r.2 ++ [Event.unlock])), by simp [loop, hr], hrk⟩

theorem exec_wf (publish : RosPublisher → Publishers → Publishers)
    (hkeys : ∀ k r, Publishers.keys (publish k r) = Publishers.keys r)
    (o : RegOp) (s : Run) (hwf : Publishers.WF s.publishers) :
    ∃ s2, o.exec publish s = some s2 ∧ Publishers.WF s2.publishers := by
  unfold RegOp.exec
  by_cases ha : s.aborted = true
  · exact ⟨s, by simp [ha], hwf⟩
  · simp only [ha]
    cases o with
    | add p => exact ⟨_, rfl, wf_assign _ p false hwf⟩
    | remove p => exact ⟨_, rfl, wf_erase _ p hwf⟩
    | request p =>
      refine ⟨_, rfl, ?_⟩
      simp only [requestPublish_publishers]
      exact wf_setSecond _ p true hwf
    | drain =>
      obtain ⟨r, hr, hrk⟩ := loop_total publish hkeys s.publishers s.publishers.length hwf
        (Nat.le_refl _)
      exact ⟨{ publishers := r.1, events := s.events ++ r.2, aborted := false }, by simp [hr],
        wf_of_keys_eq _ _ hrk hwf⟩

theorem runOps_wf (publish : RosPublisher → Publishers → Publishers)
    (hkeys : ∀ k r, Publishers.keys (publish k r) = Publishers.keys r)
    (ops : List RegOp) :
    ∀ s : Run, Publishers.WF s.publishers →
      ∃ s2, runOps publish ops s = some s2 ∧ Publishers.WF s2.publishers := by
  induction ops with
  | nil => intro s hwf; exact ⟨s, rfl, hwf⟩
  | cons o rest ih =>
    intro s hwf
    obtain ⟨s1, h1, hwf1⟩ := exec_wf publish hkeys o s hwf
    obtain ⟨s2, h2, hwf2⟩ := ih s1 hwf1
    exact ⟨s2, by simp [runOps, h1, h2], hwf2⟩

theorem find_of_mem (m : Publishers) (hwf : Publishers.WF m) (p : RosPublisher) (b : Bool)
    (h : (p, b) ∈ m) : Publishers.find m p = some b := by
  induction m with
  | nil => cases h
  | cons e rest ih =>
    obtain ⟨k, v⟩ := e
    obtain ⟨hk, hrest⟩ := (wf_cons k v rest).mp hwf
    rcases List.mem_cons.mp h with h1 | h1
    · cases h1
      simp [Publishers.find]
    · have hp : p ∈ Publishers.keys rest := List.mem_map_of_mem Prod.fst h1
      have hlt := hk p hp
      have hne : ¬ k = p := Nat.ne_of_lt hlt
      simp [Publishers.find, hne, ih hrest h1]

theorem count_keys_le_one (m : Publishers) (hwf : Publishers.WF m) (p : RosPublisher) :
    (Publishers.keys m).count p ≤ 1 := by
  have hnd : (Publishers.keys m).Nodup :=
    List.Pairwise.imp (fun h => Nat.ne_of_lt h) hwf
  exact List.nodup_iff_count_le_one.mp hnd p

/-- C11: starting from the empty registry, every finite sequence of
`addPublisher`, `removePublisher`, `requestPublish` and drain passes (whose
`publish()` calls neither register nor deregister a channel) runs to its end
and leaves a registry with strictly ascending keys: each channel identity has
at most one entry, hence one dirty flag. -/
theorem registry_entries_unique (publish : RosPublisher → Publishers → Publishers)
    (hkeys : ∀ k r, Publishers.keys (publish k r) = Publishers.keys r) (ops : List RegOp) :
    ∃ s, runOps publish ops (Run.start []) = some s ∧
      Publishers.WF s.publishers ∧
      (∀ p, (Publishers.keys s.publishers).count p ≤ 1) ∧
      (∀ p b c, (p, b) ∈ s.publishers → (p, c) ∈ s.publishers → b = c) := by
  obtain ⟨s, hs, hwf⟩ := runOps_wf publish hkeys ops (Run.start [])
    (by simp [Run.start, Publishers.WF, Publishers.keys])
  refine ⟨s, hs, hwf, count_keys_le_one s.publishers hwf, ?_⟩
  intro p b c hb hc
  have h1 := find_of_mem s.publishers hwf p b hb
  have h2 := find_of_mem s.publishers hwf p c hc
  rw [h1] at h2
  exact Option.some.inj h2

theorem registry_entries_unique_witness :
    (∀ k r, Publishers.keys (redirty 2 k r) = Publishers.keys r) ∧
    (runOps (redirty 2) [RegOp.add 3, RegOp.add 1, RegOp.add 2, RegOp.add 1, RegOp.request 2,
        RegOp.request 2, RegOp.drain, RegOp.remove 3, RegOp.add 2] (Run.start [])).map
      (fun s => s.publishers) = some [(1, false), (2, false)] ∧
    ∃ s, runOps (redirty 2) [RegOp.add 3, RegOp.add 1, RegOp.add 2, RegOp.add 1,
        RegOp.request 2, RegOp.request 2, RegOp.drain, RegOp.remove 3, RegOp.add 2]
        (Run.start []) = some s ∧
      Publishers.WF s.publishers ∧
      (∀ p, (Publishers.keys s.publishers).count p ≤ 1) ∧
      (∀ p b c, (p, b) ∈ s.publishers → (p, c) ∈ s.publishers → b = c) :=
  ⟨redirty_keys 2, by decide,
    registry_entries_unique (redirty 2) (redirty_keys 2)
      [RegOp.add 3, RegOp.add 1, RegOp.add 2, RegOp.add 1, RegOp.request 2, RegOp.request 2,
        RegOp.drain, RegOp.remove 3, RegOp.add 2]⟩

/-! ## The lock in the events of one thread -/

theorem heldAfter_append (h : Bool) (a b : List Event) :
    heldAfter h (a ++ b) = heldAfter (heldAfter h a) b := by
  simp [heldAfter, List.foldl_append]

theorem wellLocked_append (a b : List Event) :
    ∀ h : Bool, wellLocked h (a ++ b) = (wellLocked h a && wellLocked (heldAfter h a) b) := by
  induction a with
  | nil => intro h; simp [wellLocked, heldAfter]
  | cons e rest ih =>
    intro h
    show wellLocked h (e :: (rest ++ b)) = _
    simp only [wellLocked, ih, heldAfter, List.foldl_cons, Bool.and_assoc]

theorem wellLocked_guarded (body : List Event) (hb : ∀ e ∈ body, guarded e = true) :
    wellLocked true body = true ∧ heldAfter true body = true := by
  induction body with
  | nil => simp [wellLocked, heldAfter]
  | cons e rest ih =>
    have he := hb e (List.mem_cons_self _ _)
    have hrest := ih (fun x hx => hb x (List.mem_cons_of_mem _ hx))
    cases e <;> simp [guarded] at he <;>
      simpa [wellLocked, heldAfter, heldAfterEvent, guarded] using hrest

theorem loopFrom_events_guarded (publish : RosPublisher → Publishers → Publishers) :
    ∀ (fuel : Nat) (it : Option RosPublisher) (m : Publishers) (r : Publishers × List Event),
      loopFrom publish fuel it m = some r → ∀ e ∈ r.2, guarded e = true := by
  intro fuel
  induction fuel with
  | zero =>
    intro it m r h e he
    cases it with
    | none =>
      simp [loopFrom] at h
      subst h
      simp at he
    | some k => simp [loopFrom] at h
  | succ f ih =>
    intro it m r h e he
    cases it with
    | none =>
      simp [loopFrom] at h
      subst h
      simp at he
    | some k =>
      cases hv : Publishers.find m k with
      | none =>
        rw [loopFrom] at h
        simp [hv] at h
      | some v =>
        cases v with
        | false =>
          rw [loopFrom_clean publish f k m hv] at h
          cases hrec : loopFrom publish f (Publishers.next m k) m with
          | none => simp [hrec] at h
          | some r1 =>
            simp only [hrec, Option.map_some', Option.some.injEq] at h
            subst h
            simp only [List.mem_cons] at he
            rcases he with he | he
            · subst he
              rfl
            · exact ih _ _ r1 hrec e he
        | true =>
          rw [loopFrom] at h
          simp only [hv] at h
          by_cases hs : (Publishers.find (publish k (Publishers.setSecond m k false)) k).isSome
              = true
          · simp only [hs, if_true] at h
            cases hrec : loopFrom publish f
                (Publishers.next (publish k (Publishers.setSecond m k false)) k)
                (publish k (Publishers.setSecond m k false)) with
            | none => simp [hrec] at h
            | some r1 =>
              simp only [hrec, Option.map_some', Option.some.injEq] at h
              subst h
              simp only [List.mem_cons] at he
              rcases he with he | he | he | he
              · subst he
                rfl
              · subst he
                rfl
              · subst he
                rfl
              · exact ih _ _ r1 hrec e he
          · simp [hs] at h

theorem loop_events (publish : RosPublisher → Publishers → Publishers) (fuel : Nat)
    (m : Publishers) (r : Publishers × List Event) (h : loop publish fuel m = some r) :
    ∃ body, r.2 = Event.lock :: (body ++ [Event.unlock]) ∧ ∀ e ∈ body, guarded e = true := by
  unfold loop at h
  cases hrec : loopFrom publish fuel (Publishers.begin m) m with
  | none => simp [hrec] at h
  | some r1 =>
    simp only [hrec, Option.map_some', Option.some.injEq] at h
    subst h
    exact ⟨r1.2, rfl, loopFrom_events_guarded publish fuel _ m r1 hrec⟩

theorem loop_wellLocked (publish : RosPublisher → Publishers → Publishers) (fuel : Nat)
    (m : Publishers) (r : Publishers × List Event) (h : loop publish fuel m = some r) :
    wellLocked false r.2 = true ∧ heldAfter false r.2 = false := by
  obtain ⟨body, hb, hg⟩ := loop_events publish fuel m r h
  obtain ⟨h1, h2⟩ := wellLocked_guarded body hg
  rw [hb]
  constructor
  · simp [wellLocked, heldAfterEvent, wellLocked_append, h1, h2]
  · have : heldAfter false (Event.lock :: (body ++ [Event.unlock]))
        = heldAfter (heldAfter true body) [Event.unlock] := by
      simp [heldAfter, List.foldl_append, heldAfterEvent]
    rw [this, h2]
    rfl

theorem addPublisher_wellLocked (p : RosPublisher) (m : Publishers) :
    wellLocked false (addPublisher p m).2 = true ∧ heldAfter false (addPublisher p m).2 = false :=
  ⟨rfl, rfl⟩

theorem removePublisher_wellLocked (p : RosPublisher) (m : Publishers) :
    wellLocked false (removePublisher p m).2 = true ∧
      heldAfter false (removePublisher p m).2 = false :=
  ⟨rfl, rfl⟩

theorem requestPublish_wellLocked (p : RosPublisher) (m : Publishers) :
    wellLocked false (requestPublish p m).events = true ∧
      heldAfter false (requestPublish p m).events = (requestPublish p m).ret.isNone := by
  unfold requestPublish
  cases Publishers.find m p with
  | none => exact ⟨rfl, rfl⟩
  | some v => exact ⟨rfl, rfl⟩

theorem exec_wellLocked (publish : RosPublisher → Publishers → Publishers) (o : RegOp)
    (s s2 : Run) (h : o.exec publish s = some s2)
    (hs : wellLocked false s.events = true ∧ heldAfter false s.events = s.aborted) :
    wellLocked false s2.events = true ∧ heldAfter false s2.events = s2.aborted := by
  unfold RegOp.exec at h
  by_cases ha : s.aborted = true
  · simp only [ha, if_true, Option.some.injEq] at h
    subst h
    exact hs
  · have ha2 : s.aborted = false := by simpa using ha
    have hheld : heldAfter false s.events = false := by rw [hs.2, ha2]
    simp only [ha2] at h
    cases o with
    | add p =>
      simp only [Bool.false_eq_true, if_false, Option.some.injEq] at h
      subst h
      simp only [wellLocked_append, heldAfter_append, hs.1, hheld, Bool.true_and]
      exact addPublisher_wellLocked p s.publishers
    | remove p =>
      simp only [Bool.false_eq_true, if_false, Option.some.injEq] at h
      subst h
      simp only [wellLocked_append, heldAfter_append, hs.1, hheld, Bool.true_and]
      exact removePublisher_wellLocked p s.publishers
    | request p =>
      simp only [Bool.false_eq_true, if_false, Option.some.injEq] at h
      subst h
      simp only [wellLocked_append, heldAfter_append, hs.1, hheld, Bool.true_and]
      exact requestPublish_wellLocked p s.publishers
    | drain =>
      simp only [Bool.false_eq_true, if_false] at h
      cases hr : loop publish s.publishers.length s.publishers with
      | none => simp [hr] at h
      | some r =>
        simp only [hr, Option.map_some', Option.some.injEq] at h
        subst h
        simp only [wellLocked_append, heldAfter_append, hs.1, hheld, Bool.true_and]
        exact loop_wellLocked publish _ _ r hr

theorem runOps_wellLocked (publish : RosPublisher → Publishers → Publishers)
    (ops : List RegOp) :
    ∀ s s2 : Run, runOps publish ops s = some s2 →
      (wellLocked false s.events = true ∧ heldAfter false s.events = s.aborted) →
      wellLocked false s2.events = true ∧ heldAfter false s2.events = s2.aborted := by
  induction ops with
  | nil =>
    intro s s2 h hs
    simp only [runOps, Option.some.injEq] at h
    subst h
    exact hs
  | cons o rest ih =>
    intro s s2 h hs
    simp only [runOps] at h
    cases h1 : o.exec publish s with
    | none => simp [h1] at h
    | some s1 =>
      simp only [h1, Option.some_bind] at h
      exact ih s1 s2 h (exec_wellLocked publish o s s1 h1 hs)

/-! ## The lock in an interleaving of threads -/

theorem ownerAfterEvent_other (o : Option Nat) (t : Nat) (e : Event)
    (h1 : e ≠ Event.lock) (h2 : e ≠ Event.unlock) : ownerAfterEvent o (t, e) = o := by
  cases e <;> simp_all [ownerAfterEvent]

theorem heldAfterEvent_other (h : Bool) (e : Event)
    (h1 : e ≠ Event.lock) (h2 : e ≠ Event.unlock) : heldAfterEvent h e = h := by
  cases e <;> simp_all [heldAfterEvent]

theorem guarded_held (h : Bool) (e : Event) (rest : List Event) (hg : guarded e = true)
    (hw : wellLocked h (e :: rest) = true) : h = true := by
  cases e <;> simp_all [wellLocked, guarded]

theorem wellLocked_tail (h : Bool) (e : Event) (rest : List Event)
    (hw : wellLocked h (e :: rest) = true) : wellLocked (heldAfterEvent h e) rest = true := by
  simp only [wellLocked, Bool.and_eq_true] at hw
  exact hw.2

theorem wellLocked_lock (h : Bool) (rest : List Event)
    (hw : wellLocked h (Event.lock :: rest) = true) : h = false := by
  simp only [wellLocked, Bool.and_eq_true] at hw
  simpa using hw.1

theorem threadEvents_cons_self (t : Nat) (e : Event) (rest : List (Nat × Event)) :
    threadEvents t ((t, e) :: rest) = e :: threadEvents t rest := by
  simp [threadEvents, List.filter_cons]

theorem threadEvents_cons_other (t t0 : Nat) (e : Event) (rest : List (Nat × Event))
    (h : t0 ≠ t) : threadEvents t ((t0, e) :: rest) = threadEvents t rest := by
  simp [threadEvents, List.filter_cons, h]

theorem mutexOk_cons (o : Option Nat) (te : Nat × Event) (rest : List (Nat × Event))
    (h : mutexOk o (te :: rest) = true) : mutexOk (ownerAfterEvent o te) rest = true := by
  simp only [mutexOk, Bool.and_eq_true] at h
  exact h.2

theorem mutexOk_lock (o : Option Nat) (t : Nat) (rest : List (Nat × Event))
    (h : mutexOk o ((t, Event.lock) :: rest) = true) : o = none := by
  simp only [mutexOk, Bool.and_eq_true] at h
  simpa using h.1

theorem mutexOk_unlock (o : Option Nat) (t : Nat) (rest : List (Nat × Event))
    (h : mutexOk o ((t, Event.unlock) :: rest) = true) : o = some t := by
  simp only [mutexOk, Bool.and_eq_true] at h
  simpa using h.1

theorem mutexOk_append (a b : List (Nat × Event)) :
    ∀ o : Option Nat, mutexOk o (a ++ b) = true → mutexOk (ownerAfter o a) b = true := by
  induction a with
  | nil => intro o h; simpa [ownerAfter] using h
  | cons te rest ih =>
    intro o h
    have := ih _ (mutexOk_cons o te (rest ++ b) h)
    simpa [ownerAfter] using this

theorem ownerAfter_append (o : Option Nat) (a b : List (Nat × Event)) :
    ownerAfter o (a ++ b) = ownerAfter (ownerAfter o a) b := by
  simp [ownerAfter, List.foldl_append]

theorem guarded_by_owner (tr : List (Nat × Event)) :
    ∀ (o : Option Nat) (h : Nat → Bool), (∀ t, h t = true ↔ o = some t) →
      mutexOk o tr = true → (∀ t, wellLocked (h t) (threadEvents t tr) = true) →
      ∀ pre t e post, tr = pre ++ (t, e) :: post → guarded e = true →
        ownerAfter o pre = some t := by
  induction tr with
  | nil =>
    intro o h _ _ _ pre t e post heq _
    simp at heq
  | cons te rest ih =>
    intro o h hinv hmx hwl pre t e post heq hg
    obtain ⟨t0, e0⟩ := te
    cases pre with
    | nil =>
      simp only [List.nil_append, List.cons.injEq, Prod.mk.injEq] at heq
      obtain ⟨⟨ht, he⟩, _⟩ := heq
      subst ht
      subst he
      have hw := hwl t0
      rw [threadEvents_cons_self] at hw
      have hheld := guarded_held (h t0) e0 _ hg hw
      simpa [ownerAfter] using (hinv t0).mp hheld
    | cons te1 pre1 =>
      simp only [List.cons_append, List.cons.injEq] at heq
      obtain ⟨hte, hrest⟩ := heq
      subst hte
      have hw0 := hwl t0
      rw [threadEvents_cons_self] at hw0
      have hstep : ownerAfter o ((t0, e0) :: pre1)
          = ownerAfter (ownerAfterEvent o (t0, e0)) pre1 := by
        simp [ownerAfter]
      rw [hstep]
      refine ih (ownerAfterEvent o (t0, e0))
        (Function.update h t0 (heldAfterEvent (h t0) e0)) ?_ (mutexOk_cons o _ rest hmx) ?_
        pre1 t e post hrest hg
      · intro t1
        by_cases h1 : e0 = Event.lock
        · subst h1
          have ho := mutexOk_lock o t0 rest hmx
          subst ho
          by_cases ht : t1 = t0
          · subst ht
            simp [ownerAfterEvent, heldAfterEvent]
          · have hne : ¬ t0 = t1 := fun e => ht e.symm
            have hf : ¬ h t1 = true := by
              intro hh
              have := (hinv t1).mp hh
              cases this
            simp [ownerAfterEvent, Function.update, ht, hne, hf]
        · by_cases h2 : e0 = Event.unlock
          · subst h2
            have ho := mutexOk_unlock o t0 rest hmx
            subst ho
            by_cases ht : t1 = t0
            · subst ht
              simp [ownerAfterEvent, heldAfterEvent]
            · have hf : ¬ h t1 = true := by
                intro hh
                have := (hinv t1).mp hh
                simp only [Option.some.injEq] at this
                exact ht this.symm
              simp [ownerAfterEvent, Function.update, ht, hf]
          · rw [ownerAfterEvent_other o t0 e0 h1 h2, heldAfterEvent_other (h t0) e0 h1 h2,
              Function.update_eq_self]
            exact hinv t1
      · intro t1
        by_cases ht : t1 = t0
        · subst ht
          simpa using wellLocked_tail (h t1) e0 _ hw0
        · have hne : t0 ≠ t1 := fun e => ht e.symm
          have hw1 := hwl t1
          rw [threadEvents_cons_other t1 t0 e0 rest hne] at hw1
          simpa [Function.update, ht] using hw1

theorem owner_kept (mid : List (Nat × Event)) (d : Nat) :
    ∀ rest : List (Nat × Event), mutexOk (some d) (mid ++ rest) = true →
      (d, Event.unlock) ∉ mid → ownerAfter (some d) mid = some d := by
  induction mid with
  | nil => intro _ _ _; rfl
  | cons te tail ih =>
    intro rest hmx hno
    obtain ⟨t0, e0⟩ := te
    have hno2 : (d, Event.unlock) ∉ tail := fun hh => hno (List.mem_cons_of_mem _ hh)
    have hnext := mutexOk_cons (some d) (t0, e0) (tail ++ rest) hmx
    have hstep : ownerAfter (some d) ((t0, e0) :: tail)
        = ownerAfter (ownerAfterEvent (some d) (t0, e0)) tail := by
      simp [ownerAfter]
    rw [hstep]
    by_cases h1 : e0 = Event.lock
    · subst h1
      have := mutexOk_lock (some d) t0 (tail ++ rest) hmx
      cases this
    · by_cases h2 : e0 = Event.unlock
      · subst h2
        have ho := mutexOk_unlock (some d) t0 (tail ++ rest) hmx
        simp only [Option.some.injEq] at ho
        subst ho
        exact absurd (List.mem_cons_self _ _) hno
      · rw [ownerAfterEvent_other (some d) t0 e0 h1 h2] at hnext ⊢
        exact ih rest hnext hno2

theorem exclusive_while_locked (tr : List (Nat × Event)) (hmx : mutexOk none tr = true)
    (hwl : ∀ t, wellLocked false (threadEvents t tr) = true)
    (pre mid post : List (Nat × Event)) (d t : Nat) (e : Event)
    (heq : tr = pre ++ (d, Event.lock) :: (mid ++ (d, Event.unlock) :: post))
    (hno : (d, Event.unlock) ∉ mid) (hmem : (t, e) ∈ mid) (hg : guarded e = true) : t = d := by
  obtain ⟨m1, m2, hm⟩ := List.append_of_mem hmem
  have heq2 : tr = (pre ++ (d, Event.lock) :: m1) ++
      (t, e) :: (m2 ++ (d, Event.unlock) :: post) := by
    rw [heq, hm]
    simp
  have hown := guarded_by_owner tr none (fun _ => false) (by intro t1; simp) hmx hwl
    (pre ++ (d, Event.lock) :: m1) t e (m2 ++ (d, Event.unlock) :: post) heq2 hg
  have hsplit : ownerAfter none (pre ++ (d, Event.lock) :: m1) = ownerAfter (some d) m1 := by
    simp [ownerAfter, List.foldl_append, ownerAfterEvent]
  have hmx2 : mutexOk (some d) (m1 ++ (t, e) :: (m2 ++ (d, Event.unlock) :: post)) = true := by
    have h1 := mutexOk_append pre _ none (heq ▸ hmx)
    have h2 := mutexOk_cons _ _ _ h1
    rw [hm] at h2
    simpa [ownerAfterEvent] using h2
  have hno1 : (d, Event.unlock) ∉ m1 := by
    intro hh
    apply hno
    rw [hm]
    exact List.mem_append_left _ hh
  have hkept := owner_kept m1 d _ hmx2 hno1
  rw [hsplit, hkept] at hown
  exact (Option.some.inj hown).symm

/-- C12: every read or write of the registry in `addPublisher`,
`removePublisher` and `requestPublish` happens between the call's `lock` and
its `unlock`; the events of a drain pass are `lock`, then only reads, flag
writes and `publish()` calls, then `unlock`, and a pass on a well-formed
registry returns; every sequence of calls of one thread takes and releases the
lock in this way; and in every interleaving of such threads that respects the
mutex, between the `lock` of a thread and its next `unlock` (so during a whole
drain pass) no other thread performs a registry access or a `publish()`. -/
theorem registry_access_under_lock :
    (∀ p m, wellLocked false (addPublisher p m).2 = true) ∧
    (∀ p m, wellLocked false (removePublisher p m).2 = true) ∧
    (∀ p m, wellLocked false (requestPublish p m).events = true) ∧
    (∀ publish fuel m r, loop publish fuel m = some r →
      ∃ body, r.2 = Event.lock :: (body ++ [Event.unlock]) ∧ ∀ e ∈ body, guarded e = true) ∧
    (∀ m, Publishers.WF m → ∃ r, loop noEffect m.length m = some r) ∧
    (∀ publish ops m s, runOps publish ops (Run.start m) = some s →
      wellLocked false s.events = true) ∧
    (∀ tr, mutexOk none tr = true → (∀ t, wellLocked false (threadEvents t tr) = true) →
      ∀ pre mid post d t e,
        tr = pre ++ (d, Event.lock) :: (mid ++ (d, Event.unlock) :: post) →
        (d, Event.unlock) ∉ mid → (t, e) ∈ mid → guarded e = true → t = d) := by
  refine ⟨fun p m => (addPublisher_wellLocked p m).1,
    fun p m => (removePublisher_wellLocked p m).1,
    fun p m => (requestPublish_wellLocked p m).1,
    fun publish fuel m r h => loop_events publish fuel m r h, ?_, ?_, ?_⟩
  · intro m hwf
    exact ⟨_, loop_noEffect m m.length hwf (Nat.le_refl _)⟩
  · intro publish ops m s h
    exact (runOps_wellLocked publish ops (Run.start m) s h ⟨rfl, rfl⟩).1
  · intro tr hmx hwl pre mid post d t e heq hno hmem hg
    exact exclusive_while_locked tr hmx hwl pre mid post d t e heq hno hmem hg

theorem registry_access_under_lock_witness :
    mutexOk none interleavingExample = true ∧
    (∀ t, wellLocked false (threadEvents t interleavingExample) = true) ∧
    (loop noEffect 1 [(1, true)]).map Prod.snd = some (threadEvents 0 interleavingExample) ∧
    (requestPublish 1 [(1, false)]).events = threadEvents 1 interleavingExample ∧
    mutexOk none [(0, Event.lock), (0, Event.readSecond 1), (1, Event.lock),
      (1, Event.find 1), (1, Event.setSecond 1 true), (1, Event.unlock),
      (0, Event.unlock)] = false ∧
    (∀ t e, (t, e) ∈ [(0, Event.readSecond 1), (0, Event.setSecond 1 false),
      (0, Event.publish 1)] → guarded e = true → t = 0) := by
  have hwl : ∀ t, wellLocked false (threadEvents t interleavingExample) = true := by
    intro t
    rcases t with _ | _ | t
    · decide
    · decide
    · simp [threadEvents, interleavingExample, wellLocked]
  refine ⟨by decide, hwl, by decide, by decide, by decide, ?_⟩
  intro t e hmem hg
  exact registry_access_under_lock.2.2.2.2.2.2 interleavingExample (by decide) hwl []
    [(0, Event.readSecond 1), (0, Event.setSecond 1 false), (0, Event.publish 1)]
    [(1, Event.lock), (1, Event.find 1), (1, Event.setSecond 1 true), (1, Event.unlock),
      (1, Event.trigger)] 0 t e rfl (by decide) hmem hg

/-! ## The wake-up of requestPublish -/

theorem requestPublish_events (m : Publishers) (p : RosPublisher)
    (h : Publishers.find m p ≠ none) :
    (requestPublish p m).events
      = [Event.lock, Event.find p, Event.setSecond p true, Event.unlock, Event.trigger] := by
  unfold requestPublish
  cases hv : Publishers.find m p with
  | none => exact absurd hv h
  | some v => rfl

theorem loop_noEffect_count (m : Publishers) (fuel : Nat) (hwf : Publishers.WF m)
    (hfuel : m.length ≤ fuel) (p : RosPublisher) :
    ∃ r, loop noEffect fuel m = some r ∧
      (published r.2).count p = if Publishers.find m p = some true then 1 else 0 := by
  refine ⟨_, loop_noEffect m fuel hwf hfuel, ?_⟩
  simp only [published_locked, published_passEvents]
  exact count_dirtyKeys m hwf p

/-- C13: a successful call `requestPublish(p)` issues exactly one trigger; in
the events of the call the trigger comes after the write of `true` to the flag
of `p` and after the `unlock`, at a point where the lock is not held; the
flag of `p` is true when the call returns, so the drain pass that follows
returns and invokes `publish()` on `p`. -/
theorem requestPublish_trigger_order (publish : RosPublisher → Publishers → Publishers)
    (m : Publishers) (p : RosPublisher) (fuel : Nat) (hpub : ∀ k r, publish k r = r)
    (hreg : Publishers.find m p ≠ none) (hwf : Publishers.WF m) (hfuel : m.length ≤ fuel) :
    (requestPublish p m).ret = some true ∧
    (requestPublish p m).events.count Event.trigger = 1 ∧
    (∃ pre post, (requestPublish p m).events = pre ++ Event.trigger :: post ∧
      Event.setSecond p true ∈ pre ∧ Event.unlock ∈ pre ∧
      Event.trigger ∉ pre ∧ Event.trigger ∉ post ∧
      wellLocked false pre = true ∧ heldAfter false pre = false) ∧
    Publishers.find (requestPublish p m).publishers p = some true ∧
    ∃ r, loop publish fuel (requestPublish p m).publishers = some r ∧
      (published r.2).count p = 1 := by
  have hp : publish = noEffect := by
    funext k r
    exact hpub k r
  subst hp
  have hflag : Publishers.find (requestPublish p m).publishers p = some true := by
    rw [requestPublish_publishers, Publishers.find_setSecond, if_pos rfl]
    cases hv : Publishers.find m p with
    | none => exact absurd hv hreg
    | some v => rfl
  have hk : Publishers.keys (requestPublish p m).publishers = Publishers.keys m := by
    rw [requestPublish_publishers, Publishers.keys_setSecond]
  refine ⟨?_, ?_, ?_, hflag, ?_⟩
  · unfold requestPublish
    cases hv : Publishers.find m p with
    | none => exact absurd hv hreg
    | some v => rfl
  · rw [requestPublish_events m p hreg]
    simp
  · rw [requestPublish_events m p hreg]
    refine ⟨[Event.lock, Event.find p, Event.setSecond p true, Event.unlock], [], rfl,
      by simp, by simp, by simp, by simp, rfl, rfl⟩
  · obtain ⟨r, hr, hc⟩ := loop_noEffect_count (requestPublish p m).publishers fuel
      (wf_of_keys_eq _ _ hk hwf) (by rw [length_of_keys_eq _ _ hk]; exact hfuel) p
    exact ⟨r, hr, by rw [hc, if_pos hflag]⟩

theorem requestPublish_trigger_order_witness :
    (∀ k r, noEffect k r = r) ∧
    Publishers.find [(1, false), (2, false), (3, true)] 2 ≠ none ∧
    Publishers.WF [(1, false), (2, false), (3, true)] ∧
    [(1, false), (2, false), (3, true)].length ≤ 3 ∧
    (requestPublish 2 [(1, false), (2, false), (3, true)]).events
      = [Event.lock, Event.find 2, Event.setSecond 2 true, Event.unlock, Event.trigger] ∧
    ∃ r, loop noEffect 3 (requestPublish 2 [(1, false), (2, false), (3, true)]).publishers
        = some r ∧ (published r.2).count 2 = 1 :=
  ⟨fun _ _ => rfl, by decide, by decide, by decide, by decide,
    (requestPublish_trigger_order noEffect [(1, false), (2, false), (3, true)] 2 3
      (fun _ _ => rfl) (by decide) (by decide) (by decide)).2.2.2.2⟩

/-! ## Runs of calls with a callback that leaves the registry alone -/

theorem mem_dirtyKeys (m : Publishers) (hwf : Publishers.WF m) (p : RosPublisher) :
    p ∈ dirtyKeys m ↔ Publishers.find m p = some true := by
  rw [← List.one_le_count_iff, count_dirtyKeys m hwf p]
  by_cases h : Publishers.find m p = some true
  · simp [h]
  · simp [h]

theorem runOps_aborted (publish : RosPublisher → Publishers → Publishers) (ops : List RegOp)
    (s : Run) (ha : s.aborted = true) : runOps publish ops s = some s := by
  induction ops with
  | nil => rfl
  | cons o rest ih => simp [runOps, RegOp.exec, ha, ih]

theorem exec_drain (s : Run) (ha : s.aborted = false) (hwf : Publishers.WF s.publishers) :
    RegOp.drain.exec noEffect s
      = some { publishers := clearAll s.publishers
               events := s.events ++ Event.lock :: (passEvents s.publishers ++ [Event.unlock])
               aborted := false } := by
  simp [RegOp.exec, ha, loop_noEffect s.publishers s.publishers.length hwf (Nat.le_refl _)]

theorem exec_add (publish : RosPublisher → Publishers → Publishers) (q : RosPublisher)
    (s : Run) (ha : s.aborted = false) :
    (RegOp.add q).exec publish s
      = some { publishers := (addPublisher q s.publishers).1
               events := s.events ++ (addPublisher q s.publishers).2
               aborted := false } := by
  simp [RegOp.exec, ha]

theorem exec_remove (publish : RosPublisher → Publishers → Publishers) (q : RosPublisher)
    (s : Run) (ha : s.aborted = false) :
    (RegOp.remove q).exec publish s
      = some { publishers := (removePublisher q s.publishers).1
               events := s.events ++ (removePublisher q s.publishers).2
               aborted := false } := by
  simp [RegOp.exec, ha]

theorem exec_request (publish : RosPublisher → Publishers → Publishers) (q : RosPublisher)
    (s : Run) (ha : s.aborted = false) :
    (RegOp.request q).exec publish s
      = some { publishers := (requestPublish q s.publishers).publishers
               events := s.events ++ (requestPublish q s.publishers).events
               aborted := (requestPublish q s.publishers).ret.isNone } := by
  simp [RegOp.exec, ha]

theorem published_drain (evs : List Event) (m : Publishers) :
    published (evs ++ Event.lock :: (passEvents m ++ [Event.unlock]))
      = published evs ++ dirtyKeys m := by
  rw [published_append, published_locked, published_passEvents]

theorem exec_keeps_clean (p : RosPublisher) (o : RegOp) (s : Run) (ho : o ≠ RegOp.request p)
    (hwf : Publishers.WF s.publishers) (hc : Publishers.find s.publishers p ≠ some true)
    (hp : p ∉ published s.events) :
    ∃ s1, o.exec noEffect s = some s1 ∧ Publishers.WF s1.publishers ∧
      Publishers.find s1.publishers p ≠ some true ∧ p ∉ published s1.events := by
  by_cases ha : s.aborted = true
  · exact ⟨s, by simp [RegOp.exec, ha], hwf, hc, hp⟩
  · have ha2 : s.aborted = false := by simpa using ha
    cases o with
    | add q =>
      refine ⟨_, exec_add noEffect q s ha2, wf_assign _ q false hwf, ?_, ?_⟩
      · simp only [addPublisher, Publishers.find_assign]
        by_cases hq : p = q
        · simp [hq]
        · simpa [hq] using hc
      · simpa [addPublisher, published_append, published] using hp
    | remove q =>
      refine ⟨_, exec_remove noEffect q s ha2, wf_erase _ q hwf, ?_, ?_⟩
      · simp only [removePublisher, Publishers.find_erase]
        by_cases hq : p = q
        · simp [hq]
        · simpa [hq] using hc
      · simpa [removePublisher, published_append, published] using hp
    | request q =>
      have hq : p ≠ q := by
        intro hh
        apply ho
        rw [hh]
      refine ⟨_, exec_request noEffect q s ha2, ?_, ?_, ?_⟩
      · simp only [requestPublish_publishers]
        exact wf_setSecond _ q true hwf
      · simp only [requestPublish_publishers, Publishers.find_setSecond, if_neg hq]
        exact hc
      · simp only [published_append]
        unfold requestPublish
        cases Publishers.find s.publishers q <;> simpa [published] using hp
    | drain =>
      refine ⟨_, exec_drain s ha2 hwf, wf_of_keys_eq _ _ (keys_clearAll _) hwf, ?_, ?_⟩
      · simp only [find_clearAll]
        cases Publishers.find s.publishers p <;> simp
      · simp only [published_drain, List.mem_append, not_or]
        exact ⟨hp, fun hh => hc ((mem_dirtyKeys _ hwf p).mp hh)⟩

theorem exec_keeps_unregistered (p : RosPublisher) (o : RegOp) (s : Run)
    (ho : o ≠ RegOp.add p) (hwf : Publishers.WF s.publishers)
    (hc : Publishers.find s.publishers p = none) (hp : p ∉ published s.events) :
    ∃ s1, o.exec noEffect s = some s1 ∧ Publishers.WF s1.publishers ∧
      Publishers.find s1.publishers p = none ∧ p ∉ published s1.events := by
  by_cases hr : o = RegOp.request p
  · subst hr
    by_cases ha : s.aborted = true
    · exact ⟨s, by simp [RegOp.exec, ha], hwf, hc, hp⟩
    · have ha2 : s.aborted = false := by simpa using ha
      refine ⟨_, exec_request noEffect p s ha2, ?_, ?_, ?_⟩
      · simp only [requestPublish_publishers]
        exact wf_setSecond _ p true hwf
      · simp only [requestPublish_publishers, Publishers.find_setSecond, if_pos rfl, hc]
        rfl
      · simp only [published_append]
        unfold requestPublish
        simpa [hc, published] using hp
  · obtain ⟨s1, h1, hwf1, _, hp1⟩ := exec_keeps_clean p o s hr hwf (by simp [hc]) hp
    refine ⟨s1, h1, hwf1, ?_, hp1⟩
    by_cases ha : s.aborted = true
    · simp only [RegOp.exec, ha, if_true, Option.some.injEq] at h1
      subst h1
      exact hc
    · have ha2 : s.aborted = false := by simpa using ha
      cases o with
      | add q =>
        have hq : p ≠ q := by
          intro hh
          apply ho
          rw [hh]
        rw [exec_add noEffect q s ha2] at h1
        simp only [Option.some.injEq] at h1
        subst h1
        simp [addPublisher, Publishers.find_assign, hq, hc]
      | remove q =>
        rw [exec_remove noEffect q s ha2] at h1
        simp only [Option.some.injEq] at h1
        subst h1
        simp [removePublisher, Publishers.find_erase, hc]
      | request q =>
        rw [exec_request noEffect q s ha2] at h1
        simp only [Option.some.injEq] at h1
        subst h1
        simp only [requestPublish_publishers, Publishers.find_setSecond]
        split
        · rename_i hpq
          subst hpq
          simp [hc]
        · exact hc
      | drain =>
        rw [exec_drain s ha2 hwf] at h1
        simp only [Option.some.injEq] at h1
        subst h1
        simp [find_clearAll, hc]

theorem runOps_keeps_clean (p : RosPublisher) (ops : List RegOp) :
    ∀ s : Run, RegOp.request p ∉ ops → Publishers.WF s.publishers →
      Publishers.find s.publishers p ≠ some true → p ∉ published s.events →
      ∃ s2, runOps noEffect ops s = some s2 ∧ p ∉ published s2.events := by
  induction ops with
  | nil => intro s _ _ _ hp; exact ⟨s, rfl, hp⟩
  | cons o rest ih =>
    intro s hno hwf hc hp
    have ho : o ≠ RegOp.request p := fun hh => hno (by simp [hh])
    have hrest : RegOp.request p ∉ rest := fun hh => hno (List.mem_cons_of_mem _ hh)
    obtain ⟨s1, h1, hwf1, hc1, hp1⟩ := exec_keeps_clean p o s ho hwf hc hp
    obtain ⟨s2, h2, hp2⟩ := ih s1 hrest hwf1 hc1 hp1
    exact ⟨s2, by simp [runOps, h1, h2], hp2⟩

theorem runOps_keeps_unregistered (p : RosPublisher) (ops : List RegOp) :
    ∀ s : Run, requestedAfterAdd p ops = false → Publishers.WF s.publishers →
      Publishers.find s.publishers p = none → p ∉ published s.events →
      ∃ s2, runOps noEffect ops s = some s2 ∧ p ∉ published s2.events := by
  induction ops with
  | nil => intro s _ _ _ hp; exact ⟨s, rfl, hp⟩
  | cons o rest ih =>
    intro s hno hwf hc hp
    simp only [requestedAfterAdd, Bool.or_eq_false_iff, Bool.and_eq_false_iff,
      decide_eq_false_iff_not] at hno
    obtain ⟨hhead, hrest⟩ := hno
    by_cases ho : o = RegOp.add p
    · have hreq : RegOp.request p ∉ rest := by
        rcases hhead with hh | hh
        · exact absurd ho hh
        · exact hh
      obtain ⟨s1, h1, hwf1, hc1, hp1⟩ := exec_keeps_clean p o s (by rw [ho]; simp) hwf
        (by simp [hc]) hp
      obtain ⟨s2, h2, hp2⟩ := runOps_keeps_clean p rest s1 hreq hwf1 hc1 hp1
      exact ⟨s2, by simp [runOps, h1, h2], hp2⟩
    · obtain ⟨s1, h1, hwf1, hc1, hp1⟩ := exec_keeps_unregistered p o s ho hwf hc hp
      obtain ⟨s2, h2, hp2⟩ := ih s1 hrest hwf1 hc1 hp1
      exact ⟨s2, by simp [runOps, h1, h2], hp2⟩

/-- C14: a drain pass whose `publish()` calls do not modify the registry
returns and invokes `publish()` only on channels that are registered, with
flag true, when it starts; and after `removePublisher(p)`, even with the flag
of `p` true at removal, every further sequence of calls in which no
`addPublisher(p)` is followed by a `requestPublish(p)` runs to its end without
any drain pass invoking `publish()` on `p`. -/
theorem removed_channel_not_published (publish : RosPublisher → Publishers → Publishers)
    (m : Publishers) (p : RosPublisher) (ops : List RegOp) (hpub : ∀ k r, publish k r = r)
    (hwf : Publishers.WF m) (hno : requestedAfterAdd p ops = false) :
    (∀ fuel, m.length ≤ fuel → ∃ r, loop publish fuel m = some r ∧
      ∀ q ∈ published r.2, Publishers.find m q = some true) ∧
    ∃ s, runOps publish ops (Run.start (removePublisher p m).1) = some s ∧
      p ∉ published s.events := by
  have hp : publish = noEffect := by
    funext k r
    exact hpub k r
  subst hp
  constructor
  · intro fuel hfuel
    refine ⟨_, loop_noEffect m fuel hwf hfuel, ?_⟩
    intro q hq
    simp only [published_locked, published_passEvents] at hq
    exact (mem_dirtyKeys m hwf q).mp hq
  · apply runOps_keeps_unregistered p ops (Run.start (removePublisher p m).1) hno
    · exact wf_erase m p hwf
    · simp [Run.start, removePublisher, Publishers.find_erase]
    · simp [Run.start, published]

theorem removed_channel_not_published_witness :
    (∀ k r, noEffect k r = r) ∧ Publishers.WF [(1, false), (2, true)] ∧
    requestedAfterAdd 2 [RegOp.drain, RegOp.add 2, RegOp.drain, RegOp.remove 2, RegOp.drain,
      RegOp.add 1, RegOp.request 1, RegOp.drain] = false ∧
    (runOps noEffect [RegOp.drain, RegOp.add 2, RegOp.drain, RegOp.remove 2, RegOp.drain,
      RegOp.add 1, RegOp.request 1, RegOp.drain]
      (Run.start (removePublisher 2 [(1, false), (2, true)]).1)).map
        (fun s => published s.events) = some [1] ∧
    (runOps noEffect [RegOp.add 2, RegOp.request 2, RegOp.drain]
      (Run.start (removePublisher 2 [(1, false), (2, true)]).1)).map
        (fun s => published s.events) = some [2] ∧
    ∃ s, runOps noEffect [RegOp.drain, RegOp.add 2, RegOp.drain, RegOp.remove 2, RegOp.drain,
        RegOp.add 1, RegOp.request 1, RegOp.drain]
        (Run.start (removePublisher 2 [(1, false), (2, true)]).1) = some s ∧
      2 ∉ published s.events :=
  ⟨fun _ _ => rfl, by decide, by decide, by decide, by decide,
    (removed_channel_not_published noEffect [(1, false), (2, true)] 2
      [RegOp.drain, RegOp.add 2, RegOp.drain, RegOp.remove 2, RegOp.drain,
        RegOp.add 1, RegOp.request 1, RegOp.drain] (fun _ _ => rfl) (by decide) (by decide)).2⟩

/-! ## The iterations of a drain pass, one at a time -/

theorem passEvents_cons (k : RosPublisher) (v : Bool) (l : Publishers) :
    passEvents ((k, v) :: l) = passEvents [(k, v)] ++ passEvents l := by
  cases v <;> simp [passEvents]

theorem loopBody_end (publish : RosPublisher → Publishers → Publishers) (m : Publishers)
    (ev : List Event) :
    loopBody publish { publishers := m, it := none, events := ev }
      = some { publishers := m, it := none, events := ev } := rfl

theorem loopBody_noEffect (pre post : Publishers) (k : RosPublisher) (v : Bool)
    (ev : List Event) (hwf : Publishers.WF (pre ++ (k, v) :: post)) :
    loopBody noEffect { publishers := pre ++ (k, v) :: post, it := some k, events := ev }
      = some { publishers := pre ++ (k, false) :: post
               it := Publishers.begin post
               events := ev ++ passEvents [(k, v)] } := by
  have hsorted : (Publishers.keys pre ++ k :: Publishers.keys post).Pairwise
      (fun a b => a < b) := by
    simpa [Publishers.WF, Publishers.keys] using hwf
  have hnot : k ∉ Publishers.keys pre := Publishers.not_mem_pre_of_sorted _ _ _ hsorted
  have hfind : ∀ w, Publishers.find (pre ++ (k, w) :: post) k = some w := by
    intro w
    rw [Publishers.find_append_of_not_mem _ _ _ hnot]
    simp [Publishers.find]
  have hnext : ∀ w, Publishers.next (pre ++ (k, w) :: post) k = Publishers.begin post := by
    intro w
    rw [Publishers.begin_eq]
    apply Publishers.next_of_keys _ (Publishers.keys pre) (Publishers.keys post)
    · simp [Publishers.keys]
    · simpa [Publishers.WF, Publishers.keys] using hsorted
  have hset : Publishers.setSecond (pre ++ (k, true) :: post) k false
      = pre ++ (k, false) :: post := by
    rw [Publishers.setSecond_append_of_not_mem _ _ _ _ hnot]
    simp [Publishers.setSecond]
  cases v with
  | false => simp [loopBody, hfind, hnext, passEvents]
  | true => simp [loopBody, hfind, hnext, hset, noEffect, passEvents]

theorem loopSteps_noEffect (n : Nat) :
    ∀ (pre suf : Publishers) (ev : List Event), Publishers.WF (pre ++ suf) →
      loopSteps noEffect n { publishers := pre ++ suf, it := Publishers.begin suf, events := ev }
        = some { publishers := pre ++ (clearAll (suf.take n) ++ suf.drop n)
                 it := Publishers.begin (suf.drop n)
                 events := ev ++ passEvents (suf.take n) } := by
  induction n with
  | zero =>
    intro pre suf ev _
    simp [loopSteps, clearAll, passEvents]
  | succ n ih =>
    intro pre suf ev hwf
    cases suf with
    | nil =>
      have h0 := ih pre [] ev hwf
      simp only [List.take_nil, List.drop_nil] at h0 ⊢
      have hb : Publishers.begin ([] : Publishers) = none := rfl
      rw [hb] at h0 ⊢
      simp only [loopSteps, loopBody_end, Option.some_bind]
      exact h0
    | cons e post =>
      obtain ⟨k, v⟩ := e
      have hb : Publishers.begin ((k, v) :: post) = some k := rfl
      have hwf2 : Publishers.WF ((pre ++ [(k, false)]) ++ post) := by
        have := hwf
        simpa [Publishers.WF, Publishers.keys] using this
      have h1 := ih (pre ++ [(k, false)]) post (ev ++ passEvents [(k, v)]) hwf2
      simp only [List.append_assoc, List.singleton_append] at h1
      rw [hb]
      simp only [loopSteps, loopBody_noEffect pre post k v ev hwf, Option.some_bind, h1,
        List.take_succ_cons, List.drop_succ_cons]
      rw [passEvents_cons k v (post.take n)]
      simp [clearAll]

theorem mem_keys_of_readSecond (l : Publishers) (p : RosPublisher)
    (h : p ∈ Publishers.keys l) : Event.readSecond p ∈ passEvents l := by
  induction l with
  | nil => simp [Publishers.keys] at h
  | cons e rest ih =>
    obtain ⟨k, v⟩ := e
    simp only [Publishers.keys, List.map_cons, List.mem_cons] at h
    rcases h with h | h
    · subst h
      cases v <;> simp [passEvents]
    · have := ih (by simpa [Publishers.keys] using h)
      cases v <;> simp [passEvents, this]

theorem readSecond_mem_passEvents (l : Publishers) (p : RosPublisher)
    (h : Event.readSecond p ∈ passEvents l) : p ∈ Publishers.keys l := by
  induction l with
  | nil => simp [passEvents] at h
  | cons e rest ih =>
    obtain ⟨k, v⟩ := e
    cases v with
    | false =>
      simp only [passEvents, List.mem_cons, Event.readSecond.injEq] at h
      rcases h with h | h
      · simp [Publishers.keys, h]
      · have := ih h
        simp only [Publishers.keys] at this
        simp [Publishers.keys, this]
    | true =>
      simp only [passEvents, List.mem_cons, Event.readSecond.injEq] at h
      rcases h with h | h | h | h
      · simp [Publishers.keys, h]
      · cases h
      · cases h
      · have := ih h
        simp only [Publishers.keys] at this
        simp [Publishers.keys, this]

theorem publish_mem_passEvents (l : Publishers) (p : RosPublisher) (h : (p, true) ∈ l) :
    Event.publish p ∈ passEvents l := by
  induction l with
  | nil => cases h
  | cons e rest ih =>
    obtain ⟨k, v⟩ := e
    rcases List.mem_cons.mp h with h1 | h1
    · cases h1
      simp [passEvents]
    · have := ih h1
      cases v <;> simp [passEvents, this]

theorem find_append_of_mem (a b : Publishers) (p : RosPublisher)
    (h : p ∈ Publishers.keys a) : Publishers.find (a ++ b) p = Publishers.find a p := by
  induction a with
  | nil => simp [Publishers.keys] at h
  | cons e rest ih =>
    obtain ⟨k, v⟩ := e
    by_cases hk : k = p
    · simp [Publishers.find, hk]
    · have hr : p ∈ Publishers.keys rest := by
        simp only [Publishers.keys, List.map_cons, List.mem_cons] at h
        rcases h with h | h
        · exact absurd h.symm hk
        · simpa [Publishers.keys] using h
      simp [Publishers.find, hk, ih hr]

theorem steps_before_reaching (m : Publishers) (p : RosPublisher) (n : Nat)
    (hwf : Publishers.WF m) (hd : Publishers.find m p = some true) :
    ∃ s, loopSteps noEffect n (loopEntry m) = some s ∧
      (Event.readSecond p ∉ s.events → Publishers.find s.publishers p = some true) ∧
      (Event.readSecond p ∈ s.events →
        Event.publish p ∈ s.events ∧ Publishers.find s.publishers p = some false) := by
  have h := loopSteps_noEffect n [] m [Event.lock] (by simpa using hwf)
  simp only [List.nil_append] at h
  refine ⟨_, h, ?_, ?_⟩
  · intro hnot
    have hk : p ∉ Publishers.keys (clearAll (m.take n)) := by
      rw [keys_clearAll]
      intro hh
      apply hnot
      simp [mem_keys_of_readSecond _ p hh]
    simp only
    rw [Publishers.find_append_of_not_mem _ _ _ hk]
    rw [keys_clearAll] at hk
    have := Publishers.find_append_of_not_mem (m.take n) (m.drop n) p hk
    rw [List.take_append_drop] at this
    rw [← this]
    exact hd
  · intro hmem
    have hk : p ∈ Publishers.keys (m.take n) := by
      apply readSecond_mem_passEvents
      simpa using hmem
    obtain ⟨⟨p2, b⟩, hb, hp2⟩ := List.mem_map.mp hk
    simp only at hp2
    subst hp2
    have hbm : (p2, b) ∈ m := List.mem_of_mem_take hb
    have hfb := find_of_mem m hwf p2 b hbm
    rw [hd] at hfb
    cases hfb
    constructor
    · simp [publish_mem_passEvents _ p2 hb]
    · simp only
      rw [find_append_of_mem _ _ _ (by rw [keys_clearAll]; exact hk), find_clearAll]
      have hs := (Publishers.find_isSome_iff (m.take n) p2).mpr hk
      cases hf : Publishers.find (m.take n) p2 with
      | none => simp [hf] at hs
      | some v => rfl

theorem steps_complete (m : Publishers) (hwf : Publishers.WF m) :
    ∃ s, loopSteps noEffect m.length (loopEntry m) = some s ∧ s.it = none ∧
      loop noEffect m.length m = some (s.publishers, s.events ++ [Event.unlock]) := by
  have h := loopSteps_noEffect m.length [] m [Event.lock] (by simpa using hwf)
  simp only [List.nil_append, List.take_length, List.drop_length, List.append_nil] at h
  refine ⟨_, h, rfl, ?_⟩
  rw [loop_noEffect m m.length hwf (Nat.le_refl _)]
  simp

theorem exec_flag_cleared (m : Publishers) (p : RosPublisher) (o : RegOp)
    (hwf : Publishers.WF m) (hd : Publishers.find m p = some true) :
    ∃ s1, o.exec noEffect (Run.start m) = some s1 ∧
      (Publishers.find s1.publishers p = some false ↔ (o = RegOp.add p ∨ o = RegOp.drain)) ∧
      (o = RegOp.drain → p ∈ published s1.events) := by
  cases o with
  | add q =>
    refine ⟨_, exec_add noEffect q (Run.start m) rfl, ?_, by simp⟩
    simp only [Run.start, addPublisher, Publishers.find_assign]
    by_cases hq : p = q
    · simp [hq]
    · have hq2 : ¬ q = p := fun e => hq e.symm
      simp [hq, hq2, hd]
  | remove q =>
    refine ⟨_, exec_remove noEffect q (Run.start m) rfl, ?_, by simp⟩
    simp only [Run.start, removePublisher, Publishers.find_erase]
    by_cases hq : p = q
    · simp [hq]
    · simp [hq, hd]
  | request q =>
    refine ⟨_, exec_request noEffect q (Run.start m) rfl, ?_, by simp⟩
    simp only [Run.start, requestPublish_publishers, Publishers.find_setSecond]
    by_cases hq : p = q
    · subst hq
      simp [hd]
    · simp [hq, hd]
  | drain =>
    refine ⟨_, exec_drain (Run.start m) rfl hwf, ?_, ?_⟩
    · simp [Run.start, find_clearAll, hd]
    · intro _
      simp only [Run.start, published_drain, List.mem_append]
      exact Or.inr ((mem_dirtyKeys m hwf p).mpr hd)

/-- C15: when `p` is registered with dirty flag true, `p` is still registered
with flag true after `requestPublish(q)` for any `q`, after `addPublisher(q)`
and `removePublisher(q)` for any `q` other than `p`, and after any number of
iterations of a drain pass that has not yet examined `p` (once the pass has
examined `p` it has invoked `publish()` on `p` and the flag is false); among
the calls, the flag of `p` is false afterwards exactly for `addPublisher(p)`
and for a drain pass, and the drain pass invokes `publish()` on `p`. -/
theorem pending_request_kept (publish : RosPublisher → Publishers → Publishers)
    (m : Publishers) (p : RosPublisher) (hpub : ∀ k r, publish k r = r)
    (hwf : Publishers.WF m) (hd : Publishers.find m p = some true) :
    (∀ q, Publishers.find (requestPublish q m).publishers p = some true) ∧
    (∀ q, q ≠ p → Publishers.find (addPublisher q m).1 p = some true ∧
      Publishers.find (removePublisher q m).1 p = some true) ∧
    (∀ n, ∃ s, loopSteps publish n (loopEntry m) = some s ∧
      (Event.readSecond p ∉ s.events → Publishers.find s.publishers p = some true) ∧
      (Event.readSecond p ∈ s.events →
        Event.publish p ∈ s.events ∧ Publishers.find s.publishers p = some false)) ∧
    (∃ s, loopSteps publish m.length (loopEntry m) = some s ∧ s.it = none ∧
      loop publish m.length m = some (s.publishers, s.events ++ [Event.unlock])) ∧
    (∀ o : RegOp, ∃ s1, o.exec publish (Run.start m) = some s1 ∧
      (Publishers.find s1.publishers p = some false ↔ (o = RegOp.add p ∨ o = RegOp.drain)) ∧
      (o = RegOp.drain → p ∈ published s1.events)) := by
  have hp : publish = noEffect := by
    funext k r
    exact hpub k r
  subst hp
  refine ⟨?_, ?_, fun n => steps_before_reaching m p n hwf hd, steps_complete m hwf,
    fun o => exec_flag_cleared m p o hwf hd⟩
  · intro q
    rw [requestPublish_publishers, Publishers.find_setSecond]
    by_cases hq : p = q
    · subst hq
      simp [hd]
    · simp [hq, hd]
  · intro q hq
    have hq2 : ¬ p = q := fun e => hq e.symm
    constructor
    · simp [addPublisher, Publishers.find_assign, hq2, hd]
    · simp [removePublisher, Publishers.find_erase, hq2, hd]

theorem pending_request_kept_witness :
    (∀ k r, noEffect k r = r) ∧ Publishers.WF [(1, true), (2, false), (3, true)] ∧
    Publishers.find [(1, true), (2, false), (3, true)] 3 = some true ∧
    loopSteps noEffect 2 (loopEntry [(1, true), (2, false), (3, true)])
      = some { publishers := [(1, false), (2, false), (3, true)]
               it := some 3
               events := [Event.lock, Event.readSecond 1, Event.setSecond 1 false,
                 Event.publish 1, Event.readSecond 2] } ∧
    (RegOp.drain.exec noEffect (Run.start [(1, true), (2, false), (3, true)])).map
      (fun s => published s.events) = some [1, 3] ∧
    (∀ q, Publishers.find (requestPublish q [(1, true), (2, false), (3, true)]).publishers 3
      = some true) :=
  ⟨fun _ _ => rfl, by decide, by decide, by decide, by decide,
    (pending_request_kept noEffect [(1, true), (2, false), (3, true)] 3
      (fun _ _ => rfl) (by decide) (by decide)).1⟩

/-! ## The iterations one at a time agree with the whole pass -/

theorem loopSteps_of_loopFrom (publish : RosPublisher → Publishers → Publishers) (n : Nat) :
    ∀ (it : Option RosPublisher) (m : Publishers) (ev : List Event)
      (r : Publishers × List Event), loopFrom publish n it m = some r →
      loopSteps publish n { publishers := m, it := it, events := ev }
        = some { publishers := r.1, it := none, events := ev ++ r.2 } := by
  induction n with
  | zero =>
    intro it m ev r h
    cases it with
    | none =>
      rw [loopFrom_end] at h
      simp only [Option.some.injEq] at h
      subst h
      simp [loopSteps]
    | some k => simp [loopFrom] at h
  | succ n ih =>
    intro it m ev r h
    cases it with
    | none =>
      rw [loopFrom_end] at h
      simp only [Option.some.injEq] at h
      subst h
      simp only [loopSteps, loopBody_end, Option.some_bind]
      exact ih none m ev (m, []) (loopFrom_end publish n m)
    | some k =>
      cases hv : Publishers.find m k with
      | none =>
        rw [loopFrom] at h
        simp [hv] at h
      | some v =>
        cases v with
        | false =>
          rw [loopFrom_clean publish n k m hv] at h
          cases hrec : loopFrom publish n (Publishers.next m k) m with
          | none => simp [hrec] at h
          | some r1 =>
            simp only [hrec, Option.map_some', Option.some.injEq] at h
            subst h
            have hb : loopBody publish { publishers := m, it := some k, events := ev }
                = some { publishers := m, it := Publishers.next m k
                         events := ev ++ [Event.readSecond k] } := by
              simp [loopBody, hv]
            simp only [loopSteps, hb, Option.some_bind]
            rw [ih _ m (ev ++ [Event.readSecond k]) r1 hrec]
            simp
        | true =>
          rw [loopFrom] at h
          simp only [hv] at h
          by_cases hs : (Publishers.find (publish k (Publishers.setSecond m k false)) k).isSome
              = true
          · simp only [hs, if_true] at h
            cases hrec : loopFrom publish n
                (Publishers.next (publish k (Publishers.setSecond m k false)) k)
                (publish k (Publishers.setSecond m k false)) with
            | none => simp [hrec] at h
            | some r1 =>
              simp only [hrec, Option.map_some', Option.some.injEq] at h
              subst h
              have hb : loopBody publish { publishers := m, it := some k, events := ev }
                  = some { publishers := publish k (Publishers.setSecond m k false)
                           it := Publishers.next (publish k (Publishers.setSecond m k false)) k
                           events := ev ++ [Event.readSecond k, Event.setSecond k false,
                             Event.publish k] } := by
                simp [loopBody, hv, hs]
              simp only [loopSteps, hb, Option.some_bind]
              rw [ih _ _ (ev ++ [Event.readSecond k, Event.setSecond k false, Event.publish k])
                r1 hrec]
              simp
          · simp [hs] at h

theorem loopSteps_of_loop (publish : RosPublisher → Publishers → Publishers) (n : Nat)
    (m : Publishers) (r : Publishers × List Event) (h : loop publish n m = some r) :
    ∃ s, loopSteps publish n (loopEntry m) = some s ∧ s.it = none ∧
      r = (s.publishers, s.events ++ [Event.unlock]) := by
  unfold loop at h
  cases hrec : loopFrom publish n (Publishers.begin m) m with
  | none => simp [hrec] at h
  | some r1 =>
    simp only [hrec, Option.map_some', Option.some.injEq] at h
    subst h
    exact ⟨_, loopSteps_of_loopFrom publish n _ m [Event.lock] r1 hrec, rfl, by simp⟩

end RTT.ros
